import Mathlib

/-!
Shallow embedding of the rp2biosensor graph-construction and pruning core
(`rp2biosensor/RP2Objects.py`), together with theorems checking the
natural-language specification against it.

Modelling conventions:
* Python strings are lists of characters (`Str`).
* Python dictionaries are association lists whose keys stay unique;
  assignment replaces the first binding, `pop` deletes the binding.
* Python exceptions are `Option`/`Except` results: a `none`/`.error`
  value means the corresponding Python call raises.
* NetworkX is an external collaborator; its operations are modelled from
  their documented interface (see `all_shortest_paths` below).
-/

deriving instance DecidableEq for Except

namespace RP2

/-- Strings as lists of characters. -/
abbrev Str := List Char

/-! ## Association lists (Python dictionaries) -/

/-- Dictionary lookup: the first binding for the key (keys are unique). -/
def lookupA {α : Type} (l : List (Str × α)) (k : Str) : Option α :=
  match l with
  | [] => none
  | (k2, v) :: t => if k2 = k then some v else lookupA t k

/-- Dictionary assignment `d[k] = v`: replace the value of an existing
binding in place, otherwise append a new binding. -/
def setA {α : Type} (l : List (Str × α)) (k : Str) (v : α) : List (Str × α) :=
  match l with
  | [] => [(k, v)]
  | (k2, w) :: t => if k2 = k then (k2, v) :: t else (k2, w) :: setA t k v

/-- Dictionary deletion `d.pop(k)` (the key is unique, so removing every
binding for it removes exactly one). -/
def eraseA {α : Type} (l : List (Str × α)) (k : Str) : List (Str × α) :=
  l.filter (fun p => ! decide (p.1 = k))

/-! ## Python primitives used by the source -/

/-- `str.replace(a, b)` for single characters. -/
def py_replace (s : Str) (a b : Char) : Str :=
  s.map (fun c => if c = a then b else c)

/-- Characters Python's `int()` strips around the number. -/
def isPyWS (c : Char) : Bool :=
  c = ' ' ∨ c = '\t' ∨ c = '\n' ∨ c = '\r' ∨ c = '\x0b' ∨ c = '\x0c'

/-- Digits of `int()` after the first one: single underscores are allowed
between digits, nothing else. -/
def pyDigitsAux : Str → Nat → Option Nat
  | [], acc => some acc
  | c :: rest, acc =>
    if c = '_' then
      match rest with
      | [] => none
      | d :: rest2 =>
        if d.isDigit then pyDigitsAux rest2 (acc * 10 + (d.toNat - 48)) else none
    else if c.isDigit then pyDigitsAux rest (acc * 10 + (c.toNat - 48))
    else none

/-- Unsigned part of Python `int()`: one leading digit, then digit groups. -/
def pyNatParse : Str → Option Nat
  | [] => none
  | c :: rest => if c.isDigit then pyDigitsAux rest (c.toNat - 48) else none

/-- Python `int(s)` on a decimal literal: surrounding whitespace is
stripped, an optional sign precedes the digits; any other shape raises
`ValueError`, modelled as `none`.  (Non-ASCII digits are out of scope.) -/
def pyInt (s : Str) : Option Int :=
  let t := ((s.dropWhile isPyWS).reverse.dropWhile isPyWS).reverse
  match t with
  | [] => none
  | c :: rest =>
    if c = '+' then (pyNatParse rest).map (fun n => (n : Int))
    else if c = '-' then (pyNatParse rest).map (fun n => -(n : Int))
    else (pyNatParse t).map (fun n => (n : Int))

/-- Python string comparison (`a <= b`): lexicographic by code point, a
proper prefix is smaller. -/
def lexLe : Str → Str → Bool
  | [], _ => true
  | _ :: _, [] => false
  | a :: as2, b :: bs => if a = b then lexLe as2 bs else decide (a < b)

/-- Python list-of-strings comparison (`a <= b`), used for sort keys. -/
def listLexLe : List Str → List Str → Bool
  | [], _ => true
  | _ :: _, [] => false
  | a :: as2, b :: bs => if a = b then listLexLe as2 bs else lexLe a b

/-- Python `sorted` on strings: a stable sort by `lexLe`.  (Any stable
sorting algorithm computes the same list, so insertion sort is a faithful
model of Python's stable sort.) -/
def pySortStrs (l : List Str) : List Str :=
  List.insertionSort (fun a b => lexLe a b = true) l

/-! ## Compound (`RP2Objects.Compound`) -/

/-- The attributes of `Compound` the verified operations touch. -/
structure Compound where
  cids : List Str
  uid : Str
  smiles : Str
  inchi : Option Str
  inchikey : Option Str
  is_sink : Bool
  is_target : Bool
deriving DecidableEq

/-- `Compound.set_is_sink`. -/
def set_is_sink (v : Bool) (c : Compound) : Compound :=
  { c with is_sink := v }

/-- `Compound.set_uid`. -/
def set_uid (new_uid : Str) (c : Compound) : Compound :=
  { c with uid := new_uid }

/-- `Compound.set_is_target`. -/
def set_is_target (v : Bool) (c : Compound) : Compound :=
  { c with is_target := v }

/-- `Compound.add_cid`: the membership test uses the raw `cid`; the
appended value is the `cid` with `, : space [ ]` replaced by `_`. -/
def add_cid (c : Compound) (cid : Str) : Compound :=
  if cid ∈ c.cids then c
  else
    let cid1 := py_replace cid ',' '_'
    let cid2 := py_replace cid1 ':' '_'
    let cid3 := py_replace cid2 ' ' '_'
    let cid4 := py_replace cid3 '[' '_'
    let cid5 := py_replace cid4 ']' '_'
    { c with cids := c.cids ++ [cid5] }

/-- The sanitisation applied by `add_cid`, as one function: the five
character replacements composed. -/
def sanitizeCid (cid : Str) : Str :=
  py_replace (py_replace (py_replace (py_replace (py_replace
    cid ',' '_') ':' '_') ' ' '_') '[' '_') ']' '_'

/-- The `MNXM` prefix recognised by `Compound.sort_cids`. -/
def mnxPfx : Str := ['M', 'N', 'X', 'M']

/-- Pair every ID with its numeric sort key `int(x[4:])`; the first
non-integer suffix raises (`none`). -/
def mnxKeyed : List Str → Option (List (Int × Str))
  | [] => some []
  | c :: rest =>
    match pyInt (c.drop 4) with
    | none => none
    | some k =>
      match mnxKeyed rest with
      | none => none
      | some ps => some ((k, c) :: ps)

/-- `Compound.sort_cids`: if every ID starts with `MNXM`, sort by
`int(x[4:])` (raising, i.e. `none`, when a suffix is not an integer);
otherwise sort lexicographically. -/
def sort_cids (cids : List Str) : Option (List Str) :=
  if cids.all (fun c => mnxPfx.isPrefixOf c) then
    match mnxKeyed cids with
    | none => none
    | some pairs =>
      some ((List.insertionSort (fun a b => a.1 ≤ b.1) pairs).map (fun p => p.2))
  else
    some (pySortStrs cids)

/-- `Compound.get_cids`: the (sorted) ID list, or `[uid]` when empty. -/
def get_cids (c : Compound) : Option (List Str) :=
  if c.cids.length ≠ 0 then sort_cids c.cids else some [c.uid]

/-! ## ID handler (`RP2Objects.IDsHandler`) -/

/-- `IDsHandler.make_new_id` for a given prefix, width 10 and counter:
zero-padding on the left, growing (never truncating) past the width. -/
def make_new_id (pfx : Str) (cpt : Nat) : Str :=
  let digits := Nat.toDigits 10 cpt
  pfx ++ '_' :: (List.replicate (10 - digits.length) '0' ++ digits)

/-- A target ID as allocated by the `TARGET`-prefixed handler. -/
def mkTargetId (cpt : Nat) : Str :=
  make_new_id ['T', 'A', 'R', 'G', 'E', 'T'] cpt

/-! ## Target promotion (`RP2parser.__init__`, step 4) -/

/-- The fields of an input row that target promotion reads. -/
structure RRow where
  iteration : Str
  substrate : Str
deriving DecidableEq

/-- The mutable state of the target-promotion loop. -/
structure TargetState where
  smap : List (Str × Str)
  compounds : List (Str × Compound)
  visited : List Str
  cpt : Nat
deriving DecidableEq

/-- One iteration of the annotate-target loop: skip rows of non-zero
iteration; look up the substrate structure (a missing key raises,
modelled as `none`); when the looked-up identifier was not promoted
before, allocate a fresh `TARGET` identifier, update the structure-key
mapping, move the compound under the new key with its `uid` replaced and
its target flag set, and remember the new identifier as visited. -/
def promoteStep (st : TargetState) (r : RRow) : Option TargetState :=
  if r.iteration ≠ ['0'] then some st
  else
    match lookupA st.smap r.substrate with
    | none => none
    | some old_uid =>
      if old_uid ∈ st.visited then some st
      else
        let target_uid := mkTargetId st.cpt
        match lookupA st.compounds old_uid with
        | none => none
        | some cmpd =>
          some
            { smap := setA st.smap r.substrate target_uid
              compounds :=
                setA (eraseA st.compounds old_uid) target_uid
                  (set_is_target true (set_uid target_uid cmpd))
              visited := st.visited ++ [target_uid]
              cpt := st.cpt + 1 }

/-- The whole annotate-target pass over the grouped rows. -/
def promoteAll : List RRow → TargetState → Option TargetState
  | [], st => some st
  | r :: rs, st =>
    match promoteStep st r with
    | none => none
    | some st2 => promoteAll rs st2

/-! ## Reaction text (`Transformation`) -/

/-- Python `s.split(sep)` for a single-character separator. -/
def splitOnChar (sep : Char) : Str → List Str
  | [] => [[]]
  | a :: rest =>
    if a = sep then [] :: splitOnChar sep rest
    else
      match splitOnChar sep rest with
      | [] => [[a]]
      | h :: t => (a :: h) :: t

/-- Python `s.split('>>')`: greedy left-to-right non-overlapping split. -/
def splitGtGt : Str → List Str
  | [] => [[]]
  | [a] => [[a]]
  | a :: b :: rest =>
    if a = '>' ∧ b = '>' then [] :: splitGtGt rest
    else
      match splitGtGt (b :: rest) with
      | [] => [[a]]
      | h :: t => (a :: h) :: t

/-- Python `'.'.join`. -/
def joinDot : List Str → Str
  | [] => []
  | [p] => p
  | p :: ps => p ++ '.' :: joinDot ps

/-- `Transformation.__canonize_reaction_smiles`: split at `>>` (raising,
i.e. `none`, unless there are exactly two sides), sort each side's
dot-separated tokens, and rejoin. -/
def canonize_reaction_smiles (s : Str) : Option Str :=
  match splitGtGt s with
  | [left, right] =>
    some (joinDot (pySortStrs (splitOnChar '.' left)) ++
      '>' :: '>' :: joinDot (pySortStrs (splitOnChar '.' right)))
  | _ => none

/-- `Transformation.__reverse_reaction`: swap the two sides. -/
def reverse_reaction (s : Str) : Option Str :=
  match splitGtGt s with
  | [left, right] => some (right ++ '>' :: '>' :: left)
  | _ => none

/-- `items[uid] += 1` with the `items[uid] = 0` default: bump the
coefficient of an existing entry in place, else append it with 1. -/
def bumpCoeff : List (Str × Nat) → Str → List (Str × Nat)
  | [], u => [(u, 1)]
  | (k, v) :: t, u => if k = u then (k, v + 1) :: t else (k, v) :: bumpCoeff t u

/-- Token loop of `Transformation.__compounds_in_reaction_side`: resolve
each token through the registry (a missing token raises, modelled as
`none`) and accumulate coefficients. -/
def cirsAux (reg : List (Str × Str)) : List Str → List (Str × Nat) →
    Option (List (Str × Nat))
  | [], items => some items
  | smi :: rest, items =>
    match lookupA reg smi with
    | none => none
    | some uid => cirsAux reg rest (bumpCoeff items uid)

/-- `Transformation.__compounds_in_reaction_side`. -/
def compounds_in_reaction_side (reg : List (Str × Str)) (side : Str) :
    Option (List (Str × Nat)) :=
  cirsAux reg (splitOnChar '.' side) []

/-- The number of tokens of a side that resolve to a given identifier. -/
def countResolved (reg : List (Str × Str)) (u : Str) (ts : List Str) : Nat :=
  (ts.filter (fun s => lookupA reg s = some u)).length

/-- Coefficient stored for a key, defaulting to 0. -/
def coeffAt (items : List (Str × Nat)) (u : Str) : Nat :=
  (lookupA items u).getD 0

/-! ## The graph (`RetroGraph` over a NetworkX `DiGraph`)

A node models the attribute dictionary of a NetworkX node as far as the
verified operations read it: `ntype` is the `'type'` attribute (`none`
when the attribute is absent, as on nodes auto-created by `add_edge`);
`inchi` is the `'inchi'` attribute (absent and `None` collapse to
`none`: the only read, the exclusion match in `_get_nodes_matching_inchis`,
cannot distinguish them); `sink_chemical` is the `'sink_chemical'`
attribute; `svg` is the `'svg'` attribute added by refinement (outer
`none` = attribute absent, inner `none` = set to Python `None`).
Purely decorative attributes (labels, scores, SMILES texts) that no
verified operation reads are not modelled. -/

/-- A graph node. -/
structure NNode where
  id : Str
  ntype : Option Str
  inchi : Option Str
  sink_chemical : Option Bool
  svg : Option (Option Str)
deriving DecidableEq

/-- A graph edge with its coefficient and the derived `'id'` attribute
(absent until `_make_edge_ids` runs). -/
structure NEdge where
  src : Str
  tgt : Str
  coeff : Nat
  eid : Option Str
deriving DecidableEq

/-- A directed graph: node list and edge list in insertion order. -/
structure Net where
  nodes : List NNode
  edges : List NEdge
deriving DecidableEq

def emptyNet : Net := ⟨[], []⟩

/-- The node identifiers, in insertion order. -/
def nodeIds (net : Net) : List Str :=
  net.nodes.map (fun n => n.id)

/-- The `'type'` value of chemical nodes. -/
def chemicalType : Str := ['c', 'h', 'e', 'm', 'i', 'c', 'a', 'l']

/-- The `'type'` value of reaction nodes. -/
def reactionType : Str := ['r', 'e', 'a', 'c', 't', 'i', 'o', 'n']

/-- NetworkX `add_nodes_from([(id, attrs)])` when `attrs` carries the
chemical-node keys: a fresh node is appended; an existing node with the
same id has those attributes overwritten (attributes outside the dict,
here only `svg`, are kept). -/
def updChem (old n : NNode) : NNode :=
  { id := n.id, ntype := n.ntype, inchi := n.inchi,
    sink_chemical := n.sink_chemical, svg := old.svg }

/-- NetworkX `add_nodes_from([(id, attrs)])` when `attrs` carries the
reaction-node keys: chemical-only attributes of an existing node with the
same id are kept. -/
def updRxn (old n : NNode) : NNode :=
  { id := n.id, ntype := n.ntype, inchi := old.inchi,
    sink_chemical := old.sink_chemical, svg := old.svg }

/-- Insert a node, merging with an existing node of the same id. -/
def addNodeWith (merge : NNode → NNode → NNode) (net : Net) (n : NNode) : Net :=
  if net.nodes.any (fun m => m.id = n.id) then
    { net with nodes := net.nodes.map (fun m => if m.id = n.id then merge m n else m) }
  else
    { net with nodes := net.nodes ++ [n] }

/-- NetworkX auto-creates a bare node (empty attribute dictionary) for a
missing edge endpoint. -/
def ensureNode (net : Net) (i : Str) : Net :=
  if net.nodes.any (fun m => m.id = i) then net
  else { net with nodes := net.nodes ++
    [{ id := i, ntype := none, inchi := none, sink_chemical := none, svg := none }] }

/-- NetworkX `add_edge(s, t, coeff=c)`: endpoints are created when
missing; a second edge between the same ordered pair only overwrites the
written attributes. -/
def addEdge (net : Net) (s t : Str) (c : Nat) : Net :=
  let net1 := ensureNode (ensureNode net s) t
  if net1.edges.any (fun e => e.src = s ∧ e.tgt = t) then
    { net1 with edges := net1.edges.map (fun e =>
        if e.src = s ∧ e.tgt = t then { e with coeff := c } else e) }
  else
    { net1 with edges := net1.edges ++ [{ src := s, tgt := t, coeff := c, eid := none }] }

/-- The node dictionary built by `RetroGraph._add_compounds`. -/
def compoundNode (c : Compound) : NNode :=
  { id := c.uid, ntype := some chemicalType, inchi := c.inchi,
    sink_chemical := some c.is_sink, svg := none }

/-- `RetroGraph._add_compounds`: compounds sorted by their `get_cids()`
list (list-of-strings comparison; a raising key, i.e. `none`, aborts the
construction), then inserted in order. -/
def add_compounds (cmpds : List Compound) (net : Net) : Option Net :=
  match cmpds.mapM (fun c => (get_cids c).map (fun k => (k, c))) with
  | none => none
  | some pairs =>
    let sorted := List.insertionSort (fun a b => listLexLe a.1 b.1 = true) pairs
    some (sorted.foldl (fun acc kc => addNodeWith updChem acc (compoundNode kc.2)) net)

/-- The fields of `Transformation` that graph assembly reads. -/
structure Transformation where
  trs_id : Str
  left_uids : List (Str × Nat)
  right_uids : List (Str × Nat)
deriving DecidableEq

/-- The node dictionary built by `RetroGraph._add_transformations`. -/
def reactionNode (t : Transformation) : NNode :=
  { id := t.trs_id, ntype := some reactionType, inchi := none,
    sink_chemical := none, svg := none }

/-- `RetroGraph._add_transformations`: transformations sorted by id; each
contributes its node, one edge per left-side compound into the reaction
and one edge per right-side compound out of it. -/
def add_transformations (trss : List Transformation) (net : Net) : Net :=
  (List.insertionSort (fun a b => lexLe a.trs_id b.trs_id = true) trss).foldl
    (fun acc t =>
      let acc1 := addNodeWith updRxn acc (reactionNode t)
      let acc2 := t.left_uids.foldl (fun a2 p => addEdge a2 p.1 t.trs_id p.2) acc1
      t.right_uids.foldl (fun a2 p => addEdge a2 t.trs_id p.1 p.2) acc2)
    net

/-- The separator of `RetroGraph._make_edge_ids`. -/
def sepArrow : Str := ['_', '=', '>', '_']

/-- `RetroGraph._make_edge_ids`: set every edge's `'id'` attribute to
`source + '_=>_' + target`. -/
def make_edge_ids (net : Net) : Net :=
  { net with edges := net.edges.map (fun e =>
      { e with eid := some (e.src ++ sepArrow ++ e.tgt) }) }

/-- `RetroGraph.__init__`: add compounds, add transformations, then
assign edge ids. -/
def retroGraph (cmpds : List Compound) (trss : List Transformation) : Option Net :=
  match add_compounds cmpds emptyNet with
  | none => none
  | some net1 => some (make_edge_ids (add_transformations trss net1))

/-! ## SVG refinement (`RetroGraph._add_svg_depiction`)

The RDKit pipeline (InChI parsing, 2D coordinates, drawing, URI quoting)
is an external collaborator, abstracted as `render`: it maps the node's
`'inchi'` value to the final data-URI string, or fails (`none`).  The
source's `except` clause records `node['svg'] = None` and then re-raises
the exception, so the traversal stops: nodes after the failing one stay
untouched, and the caller sees the exception (the `.error` branch, which
carries the partially updated node list). -/

/-- Node loop of `_add_svg_depiction`. -/
def addSvgNodes (render : Option Str → Option Str) :
    List NNode → Except (List NNode) (List NNode)
  | [] => .ok []
  | n :: rest =>
    match n.ntype with
    | none => .error (n :: rest)
    | some ty =>
      if ty = chemicalType then
        match render n.inchi with
        | some svg =>
          match addSvgNodes render rest with
          | .ok rest2 => .ok ({ n with svg := some (some svg) } :: rest2)
          | .error rest2 => .error ({ n with svg := some (some svg) } :: rest2)
        | none => .error ({ n with svg := some none } :: rest)
      else
        match addSvgNodes render rest with
        | .ok rest2 => .ok (n :: rest2)
        | .error rest2 => .error (n :: rest2)

/-- `RetroGraph._add_svg_depiction` on the whole graph. -/
def add_svg_depiction (render : Option Str → Option Str) (net : Net) :
    Except Net Net :=
  match addSvgNodes render net.nodes with
  | .ok ns => .ok { net with nodes := ns }
  | .error ns => .error { net with nodes := ns }

/-! ## Pruning (`RetroGraph.keep_source_to_sink`) -/

/-- `RetroGraph._get_sinks`: ids of nodes whose `'sink_chemical'`
attribute exists and equals `True` (Python `True == 1`). -/
def get_sinks (net : Net) : List Str :=
  (net.nodes.filter (fun n => n.sink_chemical = some true)).map (fun n => n.id)

/-- `RetroGraph._get_nodes_matching_inchis`: ids of nodes whose `'inchi'`
attribute exists and belongs to the given list, without repetition. -/
def get_nodes_matching_inchis (net : Net) (inchis : List Str) : List Str :=
  net.nodes.foldl (fun acc n =>
    match n.inchi with
    | some v => if v ∈ inchis ∧ n.id ∉ acc then acc ++ [n.id] else acc
    | none => acc) []

/-- Adjacency of `G.to_undirected()`: an edge in either direction. -/
def adjacentB (net : Net) (a b : Str) : Bool :=
  net.edges.any (fun e => (e.src = a ∧ e.tgt = b) ∨ (e.src = b ∧ e.tgt = a))

/-- The distinct candidate successors of a node: graph nodes adjacent to
it in the undirected view. -/
def neighborsOf (net : Net) (a : Str) : List Str :=
  (nodeIds net).filter (fun b => adjacentB net a b)

/-- Depth-first enumeration of every simple undirected path from `c` to
`t` avoiding `visited`, with fuel bounding the path length. -/
def spAux (net : Net) : Nat → List Str → Str → Str → List (List Str)
  | 0, _, _, _ => []
  | fuel + 1, visited, c, t =>
    if c = t then [[c]]
    else
      ((neighborsOf net c).filter (fun n2 => n2 ∉ visited ∧ n2 ≠ c)).flatMap
        (fun n2 => (spAux net fuel (c :: visited) n2 t).map (fun p => c :: p))

/-- All simple undirected paths from `s` to `t`. -/
def simplePathsBetween (net : Net) (s t : Str) : List (List Str) :=
  spAux net net.nodes.length [] s t

/-- Smallest length among `m` and the lengths of the listed paths. -/
def minLength : List (List Str) → Nat → Nat
  | [], m => m
  | q :: qs, m => minLength qs (min m q.length)

/-- The NetworkX exceptions distinguished by the pruning loop. -/
inductive NxError
  | nodeNotFound
  | noPath
deriving DecidableEq

/-- NetworkX `all_shortest_paths(G, source, target)` (unweighted),
modelled from its documented interface: it raises `NodeNotFound` when
the source is not a node of `G`, raises `NetworkXNoPath` when the target
cannot be reached from the source (in particular when the target is not
a node of `G`), and otherwise yields exactly the minimum-length
undirected paths from source to target. -/
def all_shortest_paths (net : Net) (s t : Str) : Except NxError (List (List Str)) :=
  if s ∈ nodeIds net then
    match simplePathsBetween net s t with
    | [] => .error .noPath
    | p0 :: rest =>
      let m := minLength rest p0.length
      .ok ((p0 :: rest).filter (fun q => q.length = m))
  else .error .nodeNotFound

/-- Sink loop of `keep_source_to_sink`: for each sink, accumulate the
nodes of every shortest path to the target that avoids the cofactor
nodes; `NetworkXNoPath` is caught and the sink skipped, `NodeNotFound`
propagates. -/
def gatherKeep (net : Net) (cof : List Str) (tid : Str) :
    List Str → List Str → Except NxError (List Str)
  | [], acc => .ok acc
  | sid :: rest, acc =>
    match all_shortest_paths net sid tid with
    | .error .noPath => gatherKeep net cof tid rest acc
    | .error .nodeNotFound => .error .nodeNotFound
    | .ok paths =>
      gatherKeep net cof tid rest
        (acc ++ (paths.filter (fun p => ! p.any (fun x => decide (x ∈ cof)))).flatten)

/-- `RetroGraph.keep_source_to_sink`: compute the accepted node set, then
remove every other graph node together with its incident edges
(`remove_nodes_from`). -/
def keep_source_to_sink (net : Net) (to_skip : List Str) (target_id : Str) :
    Except NxError Net :=
  match gatherKeep net (get_nodes_matching_inchis net to_skip) target_id
      (get_sinks net) [] with
  | .error e => .error e
  | .ok keep =>
    .ok { nodes := net.nodes.filter (fun n => n.id ∈ keep),
          edges := net.edges.filter (fun e =>
            ¬ (e.src ∈ nodeIds net ∧ e.src ∉ keep) ∧
            ¬ (e.tgt ∈ nodeIds net ∧ e.tgt ∉ keep)) }

/-! ## Declarative path notions (the specification's vocabulary) -/

/-- Undirected adjacency as a proposition. -/
def AdjP (net : Net) (a b : Str) : Prop :=
  adjacentB net a b = true

/-- An undirected walk of the graph from `s` to `t`: nonempty, starts at
`s`, ends at `t`, consecutive nodes adjacent, every node a graph node. -/
def IsUWalk (net : Net) (s t : Str) (p : List Str) : Prop :=
  p.head? = some s ∧ p.getLast? = some t ∧ List.Chain' (AdjP net) p ∧
    ∀ x ∈ p, x ∈ nodeIds net

/-- The node's structural descriptor (InChI attribute) belongs to the
exclusion list. -/
def MatchesSkip (net : Net) (inchis : List Str) (x : Str) : Prop :=
  ∃ n ∈ net.nodes, n.id = x ∧ ∃ v, n.inchi = some v ∧ v ∈ inchis

/-- A shortest undirected path between `s` and `t` none of whose nodes
matches the exclusion set. -/
def IsShortestAccepted (net : Net) (inchis : List Str) (s t : Str)
    (p : List Str) : Prop :=
  IsUWalk net s t p ∧ (∀ q, IsUWalk net s t q → p.length ≤ q.length) ∧
    ∀ x ∈ p, ¬ MatchesSkip net inchis x

/-- `s` is the identifier of a sink node. -/
def IsSinkNode (net : Net) (s : Str) : Prop :=
  ∃ n ∈ net.nodes, n.id = s ∧ n.sink_chemical = some true

/-- Every edge endpoint is a node: the assembled-graph invariant. -/
def EdgesWellFormed (net : Net) : Prop :=
  ∀ e ∈ net.edges, e.src ∈ nodeIds net ∧ e.tgt ∈ nodeIds net

instance decEdgesWellFormed (net : Net) : Decidable (EdgesWellFormed net) :=
  inferInstanceAs (Decidable
    (∀ e ∈ net.edges, e.src ∈ nodeIds net ∧ e.tgt ∈ nodeIds net))

/-- The numeric sort key of an `MNXM`-prefixed compound ID. -/
def mnxKey (x : Str) : Int :=
  (pyInt (x.drop 4)).getD 0

/-- Distinct ordered edge endpoint pairs: NetworkX keeps at most one
directed edge per ordered node pair. -/
def EdgeKeysDistinct (net : Net) : Prop :=
  List.Pairwise (fun e1 e2 => ¬ (e1.src = e2.src ∧ e1.tgt = e2.tgt)) net.edges

/-! ## Concrete instances used to evaluate the theorems -/

/-- A freshly constructed compound with no external IDs. -/
def cmpd0 : Compound :=
  { cids := [], uid := ['U'], smiles := [], inchi := none, inchikey := none,
    is_sink := false, is_target := false }

/-- A sink chemical node. -/
def nS : NNode :=
  { id := ['S'], ntype := some chemicalType, inchi := some ['i', 'S'],
    sink_chemical := some true, svg := none }

/-- A reaction node. -/
def nR : NNode :=
  { id := ['R'], ntype := some reactionType, inchi := none,
    sink_chemical := none, svg := none }

/-- A target chemical node. -/
def nT : NNode :=
  { id := ['T'], ntype := some chemicalType, inchi := some ['i', 'T'],
    sink_chemical := some false, svg := none }

/-- A three-node graph: target `T` feeds reaction `R`, which produces
sink `S`. -/
def netW1 : Net :=
  { nodes := [nS, nR, nT],
    edges := [⟨['T'], ['R'], 1, none⟩, ⟨['R'], ['S'], 1, none⟩] }

/-- A graph with no sink node at all. -/
def netW8 : Net :=
  { nodes := [nR, nT], edges := [⟨['T'], ['R'], 1, none⟩] }

/-- A rendering collaborator that fails exactly on the InChI of `nS`. -/
def renderFail : Option Str → Option Str :=
  fun v => if v = some ['i', 'S'] then none else some ['o', 'k']

/-- Compound `A` of the edge-identifier collision instance. -/
def cexCA : Compound := { cmpd0 with uid := ['A'] }

/-- Compound `B` of the edge-identifier collision instance. -/
def cexCB : Compound := { cmpd0 with uid := ['B'] }

/-- A transformation whose identifier embeds the edge-id separator. -/
def cexTX : Transformation :=
  { trs_id := ['X', '_', '=', '>', '_', 'B'], left_uids := [(['A'], 1)],
    right_uids := [] }

/-- A second transformation whose identifier embeds the separator. -/
def cexTY : Transformation :=
  { trs_id := ['A', '_', '=', '>', '_', 'X'], left_uids := [],
    right_uids := [(['B'], 1)] }

/-- A compound for the well-behaved assembly instance. -/
def wCmpdA : Compound := { cmpd0 with uid := ['A'] }

/-- A transformation consuming `A`, with a separator-free identifier. -/
def wTrs1 : Transformation :=
  { trs_id := ['T', '1'], left_uids := [(['A'], 1)], right_uids := [] }

/-- The graph assembled from `wCmpdA` and `wTrs1`. -/
def wNet : Net := (retroGraph [wCmpdA] [wTrs1]).getD emptyNet

/-- An initial target-promotion state with one structure registered. -/
def stW : TargetState :=
  { smap := [(['s'], ['C', '1'])],
    compounds := [(['C', '1'], { cmpd0 with uid := ['C', '1'] })],
    visited := [], cpt := 1 }

/-- An iteration-zero row whose substrate is the registered structure. -/
def rowW : RRow := { iteration := ['0'], substrate := ['s'] }

/-! # Theorems -/

/-! ## Association-list lemmas -/

theorem lookupA_setA_self {α : Type} (l : List (Str × α)) (k : Str) (v : α) :
    lookupA (setA l k v) k = some v := by
  induction l with
  | nil => simp [setA, lookupA]
  | cons p t ih =>
    obtain ⟨k2, w⟩ := p
    by_cases h : k2 = k
    · simp [setA, h, lookupA]
    · simp [setA, h, lookupA, ih]

theorem lookupA_setA_other {α : Type} (l : List (Str × α)) (k k2 : Str) (v : α)
    (h : k2 ≠ k) : lookupA (setA l k v) k2 = lookupA l k2 := by
  induction l with
  | nil => simp [setA, lookupA, Ne.symm h]
  | cons p t ih =>
    obtain ⟨k3, w⟩ := p
    by_cases h3 : k3 = k
    · subst h3
      have hne : ¬ k3 = k2 := fun hh => h hh.symm
      simp [setA, lookupA, hne]
    · simp only [setA, if_neg h3, lookupA]
      by_cases h32 : k3 = k2 <;> simp [h32, ih]

theorem lookupA_eraseA_self {α : Type} (l : List (Str × α)) (k : Str) :
    lookupA (eraseA l k) k = none := by
  induction l with
  | nil => simp [eraseA, lookupA]
  | cons p t ih =>
    obtain ⟨k2, w⟩ := p
    by_cases h : k2 = k
    · simpa [eraseA, h] using ih
    · simpa [eraseA, h, lookupA] using ih

theorem lookupA_eraseA_other {α : Type} (l : List (Str × α)) (k k2 : Str)
    (h : k2 ≠ k) : lookupA (eraseA l k) k2 = lookupA l k2 := by
  induction l with
  | nil => simp [eraseA]
  | cons p t ih =>
    obtain ⟨k3, w⟩ := p
    by_cases h3 : k3 = k
    · subst h3
      have hne : ¬ k3 = k2 := fun hh => h hh.symm
      simp only [eraseA, List.filter_cons] at ih ⊢
      simpa [lookupA, hne] using ih
    · simp only [eraseA, List.filter_cons] at ih ⊢
      by_cases h32 : k3 = k2 <;> simp [h3, h32, lookupA, ih, h]

/-! ## C3: sink annotation and label sanitisation -/

theorem mem_py_replace {s : Str} {a b ch : Char} (h : ch ∈ py_replace s a b) :
    ch = b ∨ (ch ∈ s ∧ ch ≠ a) := by
  simp only [py_replace, List.mem_map] at h
  obtain ⟨x, hx, heq⟩ := h
  by_cases hxa : x = a
  · left
    simpa [hxa] using heq.symm
  · right
    simp only [if_neg hxa] at heq
    exact ⟨heq ▸ hx, heq ▸ hxa⟩

theorem add_cid_of_mem {c : Compound} {cid : Str} (h : cid ∈ c.cids) :
    add_cid c cid = c := by
  simp [add_cid, h]

theorem add_cid_of_not_mem {c : Compound} {cid : Str} (h : cid ∉ c.cids) :
    (add_cid c cid).cids = c.cids ++ [sanitizeCid cid] := by
  simp [add_cid, h, sanitizeCid]

/-- C3 counterexample: adding the same raw label `a,b` twice stores the
sanitised label `a_b` twice, so the label list does contain duplicates
(and `,` is replaced by `_`, not removed). -/
theorem add_cid_duplicate_cex :
    (add_cid (add_cid cmpd0 ['a', ',', 'b']) ['a', ',', 'b']).cids =
      [['a', '_', 'b'], ['a', '_', 'b']] ∧
    ¬ (add_cid (add_cid cmpd0 ['a', ',', 'b']) ['a', ',', 'b']).cids.Nodup := by
  decide

/-- C3 (amended): `set_is_sink` marks the structure as sink; `add_cid`
appends the label after replacing `, : space [ ]` with `_`, skipping the
append exactly when the raw label is already in the list; the sanitised
label contains none of those characters; deduplication is guaranteed
only for labels unchanged by sanitisation. -/
theorem add_cid_sanitize_spec (c : Compound) (cid : Str) :
    (set_is_sink true c).is_sink = true ∧
    (cid ∈ c.cids → add_cid c cid = c) ∧
    (cid ∉ c.cids → (add_cid c cid).cids = c.cids ++ [sanitizeCid cid]) ∧
    (∀ ch ∈ sanitizeCid cid,
      ch ≠ ',' ∧ ch ≠ ':' ∧ ch ≠ ' ' ∧ ch ≠ '[' ∧ ch ≠ ']') ∧
    (sanitizeCid cid = cid → add_cid (add_cid c cid) cid = add_cid c cid) := by
  refine ⟨rfl, ?_, ?_, ?_, ?_⟩
  · intro h
    exact add_cid_of_mem h
  · intro h
    exact add_cid_of_not_mem h
  · intro ch hch
    rcases mem_py_replace hch with h5 | ⟨hch4, hne5⟩
    · subst h5; decide
    rcases mem_py_replace hch4 with h4 | ⟨hch3, hne4⟩
    · subst h4; decide
    rcases mem_py_replace hch3 with h3 | ⟨hch2, hne3⟩
    · subst h3; decide
    rcases mem_py_replace hch2 with h2 | ⟨hch1, hne2⟩
    · subst h2; decide
    rcases mem_py_replace hch1 with h1 | ⟨hch0, hne1⟩
    · subst h1; decide
    exact ⟨hne1, hne2, hne3, hne4, hne5⟩
  · intro hfix
    by_cases h : cid ∈ c.cids
    · rw [add_cid_of_mem h, add_cid_of_mem h]
    · have hm : cid ∈ (add_cid c cid).cids := by
        rw [add_cid_of_not_mem h, hfix]
        simp
      exact add_cid_of_mem hm

/-- C3 witness: a raw label containing `,` is stored sanitised; a clean
label is not appended a second time. -/
theorem add_cid_sanitize_spec_witness :
    (add_cid cmpd0 ['a', ',', 'b']).cids = [['a', '_', 'b']] ∧
    add_cid (add_cid cmpd0 ['x']) ['x'] = add_cid cmpd0 ['x'] := by
  constructor
  · exact ((add_cid_sanitize_spec cmpd0 ['a', ',', 'b']).2.2.1
      (by decide)).trans (by decide)
  · exact (add_cid_sanitize_spec cmpd0 ['x']).2.2.2.2 (by decide)

/-! ## C7: label query and ordering -/

theorem lexLe_total : ∀ a b : Str, lexLe a b = true ∨ lexLe b a = true := by
  intro a
  induction a with
  | nil => intro b; left; rfl
  | cons x xs ih =>
    intro b
    cases b with
    | nil => right; rfl
    | cons y ys =>
      by_cases hxy : x = y
      · subst hxy
        rcases ih ys with h | h
        · left; simpa [lexLe] using h
        · right; simpa [lexLe] using h
      · rcases lt_or_gt_of_ne hxy with hlt | hgt
        · left; simp [lexLe, hxy, hlt]
        · right
          have hne : ¬ y = x := fun hh => hxy hh.symm
          simp [lexLe, hne, hgt]

theorem lexLe_trans : ∀ a b c : Str,
    lexLe a b = true → lexLe b c = true → lexLe a c = true := by
  intro a
  induction a with
  | nil => intro b c _ _; rfl
  | cons x xs ih =>
    intro b c hab hbc
    cases b with
    | nil => simp [lexLe] at hab
    | cons y ys =>
      cases c with
      | nil => simp [lexLe] at hbc
      | cons z zs =>
        by_cases hxy : x = y
        · subst hxy
          by_cases hyz : x = z
          · subst hyz
            simp only [lexLe, if_pos rfl] at hab hbc ⊢
            exact ih ys zs hab hbc
          · simp only [lexLe, if_neg hyz] at hbc ⊢
            exact hbc
        · by_cases hyz : y = z
          · subst hyz
            simp only [lexLe, if_neg hxy] at hab ⊢
            exact hab
          · simp only [lexLe, if_neg hxy, decide_eq_true_eq] at hab
            simp only [lexLe, if_neg hyz, decide_eq_true_eq] at hbc
            have hxz : x < z := lt_trans hab hbc
            simp [lexLe, ne_of_lt hxz, hxz]

theorem mnxKeyed_some {cids : List Str}
    (h : ∀ x ∈ cids, (pyInt (x.drop 4)).isSome = true) :
    ∃ pairs, mnxKeyed cids = some pairs ∧ pairs.map Prod.snd = cids ∧
      ∀ p ∈ pairs, p.1 = mnxKey p.2 := by
  induction cids with
  | nil => exact ⟨[], rfl, rfl, by simp⟩
  | cons c rest ih =>
    have hc := h c (by simp)
    obtain ⟨k, hk⟩ : ∃ k, pyInt (c.drop 4) = some k := by
      cases hpi : pyInt (c.drop 4) with
      | none => rw [hpi] at hc; simp at hc
      | some k => exact ⟨k, rfl⟩
    obtain ⟨ps, hps, hmap, hkey⟩ := ih (fun x hx => h x (by simp [hx]))
    refine ⟨(k, c) :: ps, ?_, ?_, ?_⟩
    · simp [mnxKeyed, hk, hps]
    · simp [hmap]
    · intro p hp
      rcases List.mem_cons.1 hp with h1 | h2
      · subst h1; simp [mnxKey, hk]
      · exact hkey p h2

theorem mnxKeyed_none {cids : List Str}
    (h : ∃ x ∈ cids, pyInt (x.drop 4) = none) :
    mnxKeyed cids = none := by
  induction cids with
  | nil => simp at h
  | cons c rest ih =>
    obtain ⟨x, hx, hnone⟩ := h
    rcases List.mem_cons.1 hx with h1 | h2
    · subst h1; simp [mnxKeyed, hnone]
    · cases hpi : pyInt (c.drop 4) with
      | none => simp [mnxKeyed, hpi]
      | some k => simp [mnxKeyed, hpi, ih ⟨x, h2, hnone⟩]

/-- C7 counterexample: a compound with the single label `MNXMa` has a
label, yet `get_cids` raises (the suffix `a` is not an integer) instead
of returning the labels. -/
theorem get_cids_mnx_cex :
    ({ cmpd0 with cids := [['M', 'N', 'X', 'M', 'a']] } : Compound).cids ≠ [] ∧
    get_cids { cmpd0 with cids := [['M', 'N', 'X', 'M', 'a']] } = none := by
  decide

/-- C7 (amended): `get_cids` returns `[uid]` when no label exists.  When
labels exist and all start with `MNXM` with integer suffixes, it returns
them sorted by numeric suffix; when some label lacks the prefix, it
returns them sorted lexicographically; but when all labels carry the
prefix and some suffix does not parse as an integer, the operation
raises instead of returning a list. -/
theorem get_cids_spec (c : Compound) :
    (c.cids = [] → get_cids c = some [c.uid]) ∧
    (c.cids ≠ [] → (∀ x ∈ c.cids, mnxPfx.isPrefixOf x = true) →
      (∀ x ∈ c.cids, (pyInt (x.drop 4)).isSome = true) →
      ∃ l, get_cids c = some l ∧ l.Perm c.cids ∧
        l.Pairwise (fun a b => mnxKey a ≤ mnxKey b)) ∧
    (c.cids ≠ [] → (∃ x ∈ c.cids, mnxPfx.isPrefixOf x = false) →
      ∃ l, get_cids c = some l ∧ l.Perm c.cids ∧
        l.Pairwise (fun a b => lexLe a b = true)) ∧
    (c.cids ≠ [] → (∀ x ∈ c.cids, mnxPfx.isPrefixOf x = true) →
      (∃ x ∈ c.cids, pyInt (x.drop 4) = none) → get_cids c = none) := by
  refine ⟨?_, ?_, ?_, ?_⟩
  · intro h
    simp [get_cids, h]
  · intro hne hall hsome
    have hlen : ¬ c.cids.length = 0 := fun hh => hne (List.length_eq_zero.mp hh)
    obtain ⟨pairs, hps, hmap, hkey⟩ := mnxKeyed_some hsome
    have hall2 : c.cids.all (fun x => mnxPfx.isPrefixOf x) = true := by
      rw [List.all_eq_true]; exact hall
    haveI : IsTotal (Int × Str) (fun a b => a.1 ≤ b.1) :=
      ⟨fun a b => le_total a.1 b.1⟩
    haveI : IsTrans (Int × Str) (fun a b => a.1 ≤ b.1) :=
      ⟨fun a b c2 h1 h2 => le_trans h1 h2⟩
    refine ⟨(List.insertionSort (fun a b => a.1 ≤ b.1) pairs).map (fun p => p.2),
      ?_, ?_, ?_⟩
    · simp [get_cids, hlen, sort_cids, hall2, hps]
    · have hperm := (List.perm_insertionSort (fun a b => a.1 ≤ b.1) pairs).map
        (fun p : Int × Str => p.2)
      rw [show (fun p : Int × Str => p.2) = Prod.snd from rfl, hmap] at hperm
      exact hperm
    · have hs := List.sorted_insertionSort (fun a b => a.1 ≤ b.1) pairs
      have hkey2 : ∀ p ∈ List.insertionSort (fun a b => a.1 ≤ b.1) pairs,
          p.1 = mnxKey p.2 := fun p hp =>
        hkey p ((List.perm_insertionSort (fun a b => a.1 ≤ b.1) pairs).mem_iff.1 hp)
      rw [List.pairwise_map]
      exact hs.imp_of_mem (fun {a b} ha hb hr => by
        rw [hkey2 a ha, hkey2 b hb] at hr; exact hr)
  · intro hne hex
    have hlen : ¬ c.cids.length = 0 := fun hh => hne (List.length_eq_zero.mp hh)
    obtain ⟨x, hx, hpf⟩ := hex
    have hall2 : c.cids.all (fun y => mnxPfx.isPrefixOf y) = false := by
      rw [List.all_eq_false]
      exact ⟨x, hx, by simp [hpf]⟩
    haveI : IsTotal Str (fun a b => lexLe a b = true) := ⟨lexLe_total⟩
    haveI : IsTrans Str (fun a b => lexLe a b = true) := ⟨lexLe_trans⟩
    refine ⟨pySortStrs c.cids, ?_, ?_, ?_⟩
    · simp [get_cids, hlen, sort_cids, hall2, pySortStrs]
    · exact List.perm_insertionSort (fun a b => lexLe a b = true) c.cids
    · exact List.sorted_insertionSort (fun a b => lexLe a b = true) c.cids
  · intro hne hall hxnone
    have hlen : ¬ c.cids.length = 0 := fun hh => hne (List.length_eq_zero.mp hh)
    have hall2 : c.cids.all (fun x => mnxPfx.isPrefixOf x) = true := by
      rw [List.all_eq_true]; exact hall
    simp [get_cids, hlen, sort_cids, hall2, mnxKeyed_none hxnone]

/-- C7 witness: two numeric `MNXM` labels come back sorted by suffix
(`MNXM3` before `MNXM12`, not lexicographic). -/
theorem get_cids_spec_witness :
    (({ cmpd0 with cids := [['M', 'N', 'X', 'M', '1', '2'],
        ['M', 'N', 'X', 'M', '3']] } : Compound).cids ≠ []) ∧
    (∃ l, get_cids { cmpd0 with cids := [['M', 'N', 'X', 'M', '1', '2'],
        ['M', 'N', 'X', 'M', '3']] } = some l ∧
      l.Perm [['M', 'N', 'X', 'M', '1', '2'], ['M', 'N', 'X', 'M', '3']] ∧
      l.Pairwise (fun a b => mnxKey a ≤ mnxKey b)) := by
  refine ⟨by decide, ?_⟩
  exact (get_cids_spec { cmpd0 with cids := [['M', 'N', 'X', 'M', '1', '2'],
    ['M', 'N', 'X', 'M', '3']] }).2.1 (by decide) (by decide) (by decide)

/-! ## C4: target promotion -/

theorem promoteStep_preserves {st st' : TargetState} {r : RRow} {s u : Str}
    (hu : lookupA st.smap s = some u) (hv : u ∈ st.visited)
    (h : promoteStep st r = some st') :
    lookupA st'.smap s = some u ∧ u ∈ st'.visited := by
  unfold promoteStep at h
  split at h
  next hit =>
    cases h
    exact ⟨hu, hv⟩
  next hit =>
    split at h
    next hlu => cases h
    next old hlu =>
      split at h
      next hov =>
        cases h
        exact ⟨hu, hv⟩
      next hov =>
        split at h
        next hlc => cases h
        next cm hlc =>
          cases h
          have hsub : s ≠ r.substrate := by
            intro hh
            rw [hh] at hu
            rw [hu] at hlu
            injection hlu with he
            exact hov (he ▸ hv)
          constructor
          · rw [lookupA_setA_other _ _ _ _ hsub]
            exact hu
          · exact List.mem_append_left _ hv

theorem promoteAll_preserves {s u : Str} : ∀ (rows : List RRow)
    (st st' : TargetState), lookupA st.smap s = some u → u ∈ st.visited →
    promoteAll rows st = some st' →
    lookupA st'.smap s = some u ∧ u ∈ st'.visited := by
  intro rows
  induction rows with
  | nil =>
    intro st st' hu hv h
    cases h
    exact ⟨hu, hv⟩
  | cons r rs ih =>
    intro st st' hu hv h
    unfold promoteAll at h
    cases hstep : promoteStep st r with
    | none => rw [hstep] at h; cases h
    | some st2 =>
      rw [hstep] at h
      obtain ⟨hu2, hv2⟩ := promoteStep_preserves hu hv hstep
      exact ih st2 st' hu2 hv2 h

/-- C4: the first iteration-zero occurrence of a not-yet-promoted
substrate structure promotes it — the structure key now maps to the
fresh `TARGET` identifier, that identifier is recorded as visited, the
compound is re-keyed with its `uid` replaced and target flag set, and
the counter advances — and after any further processing the key still
maps to that same identifier while every later iteration-zero occurrence
of the same structure leaves the state unchanged. -/
theorem target_promotion_once (st : TargetState) (r : RRow) (u : Str)
    (cm : Compound) (hit : r.iteration = ['0'])
    (hu : lookupA st.smap r.substrate = some u)
    (hnv : u ∉ st.visited)
    (hc : lookupA st.compounds u = some cm) :
    ∃ st2, promoteStep st r = some st2 ∧
      lookupA st2.smap r.substrate = some (mkTargetId st.cpt) ∧
      mkTargetId st.cpt ∈ st2.visited ∧
      lookupA st2.compounds (mkTargetId st.cpt) =
        some { cm with uid := mkTargetId st.cpt, is_target := true } ∧
      st2.cpt = st.cpt + 1 ∧
      (∀ rows st3, promoteAll rows st2 = some st3 →
        lookupA st3.smap r.substrate = some (mkTargetId st.cpt) ∧
        ∀ r2 : RRow, r2.iteration = ['0'] → r2.substrate = r.substrate →
          promoteStep st3 r2 = some st3) := by
  have h0 : ¬ r.iteration ≠ ['0'] := by simp [hit]
  have hstep : promoteStep st r = some
      ⟨setA st.smap r.substrate (mkTargetId st.cpt),
        setA (eraseA st.compounds u) (mkTargetId st.cpt)
          (set_is_target true (set_uid (mkTargetId st.cpt) cm)),
        st.visited ++ [mkTargetId st.cpt], st.cpt + 1⟩ := by
    simp [promoteStep, h0, hu, hnv, hc, set_is_target, set_uid]
  refine ⟨_, hstep, lookupA_setA_self _ _ _, by simp, ?_, rfl, ?_⟩
  · rw [lookupA_setA_self]
    rfl
  · intro rows st3 hall
    have hpres := promoteAll_preserves rows _ st3 (lookupA_setA_self _ _ _)
      (by simp) hall
    refine ⟨hpres.1, ?_⟩
    intro r2 hit2 hsub2
    have h02 : ¬ r2.iteration ≠ ['0'] := by simp [hit2]
    simp [promoteStep, h02, hsub2, hpres.1, hpres.2]

/-- C4 witness: promoting the registered structure `s` once maps it to
`TARGET_0000000001`, and repeating the same iteration-zero row is a
no-op. -/
theorem target_promotion_once_witness :
    ∃ st2, promoteStep stW rowW = some st2 ∧
      lookupA st2.smap ['s'] = some (mkTargetId 1) ∧
      promoteStep st2 rowW = some st2 := by
  obtain ⟨st2, hstep, hmap, _hvis, _hcomp, _hcpt, hrest⟩ :=
    target_promotion_once stW rowW ['C', '1'] { cmpd0 with uid := ['C', '1'] }
      (by decide) (by decide) (by decide) (by decide)
  have hnoop := (hrest [] st2 rfl).2 rowW rfl rfl
  exact ⟨st2, hstep, hmap, hnoop⟩

/-! ## C5: canonicalisation and reversal -/

theorem splitGtGt_no_gt {s : Str} (h : '>' ∉ s) : splitGtGt s = [s] := by
  induction s with
  | nil => rfl
  | cons a rest ih =>
    have ha : a ≠ '>' := fun hh => h (hh ▸ List.mem_cons_self a rest)
    have hrest : '>' ∉ rest := fun hh => h (List.mem_cons_of_mem a hh)
    cases rest with
    | nil => rfl
    | cons b rest2 =>
      have hcond : ¬ (a = '>' ∧ b = '>') := fun hh => ha hh.1
      simp only [splitGtGt, if_neg hcond, ih hrest]

theorem splitGtGt_append {x y : Str} (hx : '>' ∉ x) (hy : '>' ∉ y) :
    splitGtGt (x ++ '>' :: '>' :: y) = [x, y] := by
  induction x with
  | nil =>
    simp [splitGtGt, splitGtGt_no_gt hy]
  | cons a x2 ih =>
    have ha : a ≠ '>' := fun hh => hx (hh ▸ List.mem_cons_self _ _)
    have hx2 : '>' ∉ x2 := fun hh => hx (List.mem_cons_of_mem _ hh)
    obtain ⟨b, rest, hbr⟩ : ∃ b rest, x2 ++ '>' :: '>' :: y = b :: rest := by
      cases x2 with
      | nil => exact ⟨_, _, rfl⟩
      | cons c cs => exact ⟨_, _, rfl⟩
    have hcond : ¬ (a = '>' ∧ b = '>') := fun hh => ha hh.1
    calc splitGtGt (a :: x2 ++ '>' :: '>' :: y)
        = splitGtGt (a :: b :: rest) := by rw [List.cons_append, hbr]
      _ = match splitGtGt (b :: rest) with
          | [] => [[a]]
          | h :: t => (a :: h) :: t := by
            simp only [splitGtGt, if_neg hcond]
      _ = [a :: x2, y] := by rw [← hbr, ih hx2]

theorem splitOnChar_ne_nil {sep : Char} {s : Str} : splitOnChar sep s ≠ [] := by
  cases s with
  | nil => simp [splitOnChar]
  | cons a rest =>
    by_cases ha : a = sep
    · simp [splitOnChar, ha]
    · simp only [splitOnChar, if_neg ha]
      cases splitOnChar sep rest <;> simp

theorem mem_of_mem_splitOnChar {sep : Char} {s : Str} :
    ∀ {p : Str} {ch : Char}, p ∈ splitOnChar sep s → ch ∈ p → ch ∈ s := by
  induction s with
  | nil =>
    intro p ch hp hch
    simp [splitOnChar] at hp
    subst hp
    simp at hch
  | cons a rest ih =>
    intro p ch hp hch
    by_cases ha : a = sep
    · rw [splitOnChar, if_pos ha] at hp
      rcases List.mem_cons.1 hp with h1 | h2
      · subst h1; simp at hch
      · exact List.mem_cons_of_mem _ (ih h2 hch)
    · rw [splitOnChar, if_neg ha] at hp
      cases hr : splitOnChar sep rest with
      | nil => exact absurd hr splitOnChar_ne_nil
      | cons h t =>
        rw [hr] at hp
        rcases List.mem_cons.1 hp with h1 | h2
        · subst h1
          rcases List.mem_cons.1 hch with hc1 | hc2
          · subst hc1; exact List.mem_cons_self _ _
          · have hh : h ∈ splitOnChar sep rest := by
              rw [hr]; exact List.mem_cons_self _ _
            exact List.mem_cons_of_mem _ (ih hh hc2)
        · have hh : p ∈ splitOnChar sep rest := by
            rw [hr]; exact List.mem_cons_of_mem _ h2
          exact List.mem_cons_of_mem _ (ih hh hch)

theorem mem_of_mem_joinDot {ps : List Str} {ch : Char} (h : ch ∈ joinDot ps) :
    ch = '.' ∨ ∃ p ∈ ps, ch ∈ p := by
  induction ps with
  | nil => simp [joinDot] at h
  | cons p ps2 ih =>
    cases ps2 with
    | nil =>
      right
      exact ⟨p, by simp, by simpa [joinDot] using h⟩
    | cons q ps3 =>
      simp only [joinDot] at h
      rcases List.mem_append.1 h with h1 | h2
      · right; exact ⟨p, by simp, h1⟩
      · rcases List.mem_cons.1 h2 with h3 | h4
        · left; exact h3
        · rcases ih h4 with h5 | ⟨w, hw, hcw⟩
          · left; exact h5
          · right; exact ⟨w, List.mem_cons_of_mem _ hw, hcw⟩

theorem mem_pySortStrs {l : List Str} {p : Str} : p ∈ pySortStrs l ↔ p ∈ l :=
  (List.perm_insertionSort _ l).mem_iff

theorem joined_side_no_gt {s : Str} (h : '>' ∉ s) :
    '>' ∉ joinDot (pySortStrs (splitOnChar '.' s)) := by
  intro hmem
  rcases mem_of_mem_joinDot hmem with h1 | ⟨p, hp, hcp⟩
  · exact absurd h1 (by decide)
  · exact h (mem_of_mem_splitOnChar (mem_pySortStrs.1 hp) hcp)

/-- C5 counterexample: `A>>B>` is a two-sided reaction text (its sides
are `A` and `B>`), yet canonicalising the reversed text and re-reversing
does not reproduce the canonicalised original. -/
theorem canonize_reverse_roundtrip_cex :
    splitGtGt ['A', '>', '>', 'B', '>'] = [['A'], ['B', '>']] ∧
    ((reverse_reaction ['A', '>', '>', 'B', '>']).bind (fun t =>
      (canonize_reaction_smiles t).bind reverse_reaction)) ≠
      canonize_reaction_smiles ['A', '>', '>', 'B', '>'] := by
  decide

/-- C5 (amended): for a two-sided reaction text whose sides contain no
`>` character, canonicalisation sorts each side's dot-separated tokens
and joins them around `>>`, reversal swaps the sides without re-sorting,
and canonicalising the reversed text then re-reversing equals
canonicalising the original. -/
theorem canonize_reverse_roundtrip (s l r : Str)
    (hs : splitGtGt s = [l, r]) (hl : '>' ∉ l) (hr : '>' ∉ r) :
    reverse_reaction s = some (r ++ '>' :: '>' :: l) ∧
    canonize_reaction_smiles s = some
      (joinDot (pySortStrs (splitOnChar '.' l)) ++ '>' :: '>' ::
        joinDot (pySortStrs (splitOnChar '.' r))) ∧
    ((reverse_reaction s).bind (fun t =>
      (canonize_reaction_smiles t).bind reverse_reaction)) =
      canonize_reaction_smiles s := by
  have hrev : reverse_reaction s = some (r ++ '>' :: '>' :: l) := by
    simp [reverse_reaction, hs]
  have hcan : canonize_reaction_smiles s = some
      (joinDot (pySortStrs (splitOnChar '.' l)) ++ '>' :: '>' ::
        joinDot (pySortStrs (splitOnChar '.' r))) := by
    simp [canonize_reaction_smiles, hs, pySortStrs]
  refine ⟨hrev, hcan, ?_⟩
  rw [hrev, Option.some_bind]
  have h1 : canonize_reaction_smiles (r ++ '>' :: '>' :: l) = some
      (joinDot (pySortStrs (splitOnChar '.' r)) ++ '>' :: '>' ::
        joinDot (pySortStrs (splitOnChar '.' l))) := by
    simp [canonize_reaction_smiles, splitGtGt_append hr hl, pySortStrs]
  rw [h1, Option.some_bind]
  have h2 : reverse_reaction
      (joinDot (pySortStrs (splitOnChar '.' r)) ++ '>' :: '>' ::
        joinDot (pySortStrs (splitOnChar '.' l))) = some
      (joinDot (pySortStrs (splitOnChar '.' l)) ++ '>' :: '>' ::
        joinDot (pySortStrs (splitOnChar '.' r))) := by
    simp [reverse_reaction, splitGtGt_append (joined_side_no_gt hr)
      (joined_side_no_gt hl)]
  rw [h2, hcan]

/-- C5 witness: the round trip holds on `A.B>>C`. -/
theorem canonize_reverse_roundtrip_witness :
    (splitGtGt ['A', '.', 'B', '>', '>', 'C'] = [['A', '.', 'B'], ['C']] ∧
      ('>' ∉ ['A', '.', 'B']) ∧ ('>' ∉ (['C'] : Str))) ∧
    ((reverse_reaction ['A', '.', 'B', '>', '>', 'C']).bind (fun t =>
      (canonize_reaction_smiles t).bind reverse_reaction)) =
      canonize_reaction_smiles ['A', '.', 'B', '>', '>', 'C'] :=
  ⟨⟨by decide, by decide, by decide⟩,
    (canonize_reverse_roundtrip ['A', '.', 'B', '>', '>', 'C'] ['A', '.', 'B']
      ['C'] (by decide) (by decide) (by decide)).2.2⟩

/-! ## C6: coefficient accumulation -/

theorem lookupA_bump_self (items : List (Str × Nat)) (u : Str) :
    lookupA (bumpCoeff items u) u = some (coeffAt items u + 1) := by
  induction items with
  | nil => simp [bumpCoeff, lookupA, coeffAt]
  | cons p t ih =>
    obtain ⟨k, v⟩ := p
    by_cases hk : k = u
    · simp [bumpCoeff, hk, lookupA, coeffAt]
    · simp [bumpCoeff, hk, lookupA, coeffAt, ih]

theorem lookupA_bump_other {v u : Str} (h : v ≠ u) (items : List (Str × Nat)) :
    lookupA (bumpCoeff items u) v = lookupA items v := by
  induction items with
  | nil => simp [bumpCoeff, lookupA, Ne.symm h]
  | cons p t ih =>
    obtain ⟨k, w⟩ := p
    by_cases hk : k = u
    · subst hk
      simp [bumpCoeff, lookupA, Ne.symm h]
    · by_cases hkv : k = v <;> simp [bumpCoeff, hk, lookupA, hkv, ih, h]

theorem coeffAt_bump_self (items : List (Str × Nat)) (u : Str) :
    coeffAt (bumpCoeff items u) u = coeffAt items u + 1 := by
  simp [coeffAt, lookupA_bump_self]

theorem coeffAt_bump_other {v u : Str} (h : v ≠ u) (items : List (Str × Nat)) :
    coeffAt (bumpCoeff items u) v = coeffAt items v := by
  simp [coeffAt, lookupA_bump_other h]

theorem mem_keys_bump {x u : Str} {items : List (Str × Nat)} :
    x ∈ (bumpCoeff items u).map Prod.fst ↔
      x ∈ items.map Prod.fst ∨ x = u := by
  induction items with
  | nil => simp [bumpCoeff]
  | cons p t ih =>
    obtain ⟨k, v⟩ := p
    by_cases hk : k = u
    · subst hk
      simp only [bumpCoeff, if_pos rfl, List.map_cons, List.mem_cons]
      simp
      tauto
    · simp only [bumpCoeff, if_neg hk, List.map_cons, List.mem_cons, ih]
      tauto

theorem keys_bump_nodup {items : List (Str × Nat)} (u : Str)
    (h : (items.map Prod.fst).Nodup) :
    ((bumpCoeff items u).map Prod.fst).Nodup := by
  induction items with
  | nil => simp [bumpCoeff]
  | cons p t ih =>
    obtain ⟨k, v⟩ := p
    simp only [List.map_cons, List.nodup_cons] at h
    by_cases hk : k = u
    · subst hk
      simp only [bumpCoeff, if_pos rfl, List.map_cons, List.nodup_cons]
      simp
      exact ⟨fun x hx => h.1 (List.mem_map.2 ⟨(k, x), hx, rfl⟩), h.2⟩
    · simp only [bumpCoeff, if_neg hk, List.map_cons, List.nodup_cons]
      refine ⟨?_, ih h.2⟩
      rw [mem_keys_bump]
      rintro (h1 | h2)
      · exact h.1 h1
      · exact hk h2

theorem count_eq_filter_length (t : Str) : ∀ l : List Str,
    l.count t = (l.filter (fun s => decide (s = t))).length := by
  intro l
  induction l with
  | nil => rfl
  | cons a rest ih =>
    by_cases ha : a = t
    · simp [List.count_cons, ha, List.filter_cons, ih]
    · simp [List.count_cons, ha, List.filter_cons, ih]

theorem cirsAux_spec (reg : List (Str × Str)) : ∀ (ts : List Str)
    (items : List (Str × Nat)),
    (∀ s ∈ ts, (lookupA reg s).isSome = true) →
    ∃ out, cirsAux reg ts items = some out ∧
      ((items.map Prod.fst).Nodup → (out.map Prod.fst).Nodup) ∧
      (∀ u, coeffAt out u = coeffAt items u + countResolved reg u ts) ∧
      (∀ u, (lookupA out u).isSome = true ↔
        (lookupA items u).isSome = true ∨ 0 < countResolved reg u ts) := by
  intro ts
  induction ts with
  | nil =>
    intro items _
    exact ⟨items, rfl, id, fun u => by simp [countResolved],
      fun u => by simp [countResolved]⟩
  | cons smi rest ih =>
    intro items h
    have hsmi := h smi (by simp)
    obtain ⟨uid, huid⟩ : ∃ uid, lookupA reg smi = some uid := by
      cases hu : lookupA reg smi with
      | none => rw [hu] at hsmi; simp at hsmi
      | some uid => exact ⟨uid, rfl⟩
    obtain ⟨out, hout, hnd, hco, hps⟩ :=
      ih (bumpCoeff items uid) (fun s hs => h s (by simp [hs]))
    refine ⟨out, ?_, ?_, ?_, ?_⟩
    · simp [cirsAux, huid, hout]
    · intro hnodup
      exact hnd (keys_bump_nodup _ hnodup)
    · intro u
      rw [hco u]
      by_cases huu : u = uid
      · subst huu
        rw [coeffAt_bump_self]
        have hcr : countResolved reg u (smi :: rest) =
            countResolved reg u rest + 1 := by
          simp [countResolved, List.filter_cons, huid]
        rw [hcr]
        omega
      · rw [coeffAt_bump_other huu]
        have hcr : countResolved reg u (smi :: rest) =
            countResolved reg u rest := by
          have hne : ¬ (lookupA reg smi = some u) := by
            rw [huid]
            simp
            exact fun hh => huu hh.symm
          simp [countResolved, List.filter_cons, hne]
        rw [hcr]
    · intro u
      rw [hps u]
      by_cases huu : u = uid
      · subst huu
        have hcr : countResolved reg u (smi :: rest) =
            countResolved reg u rest + 1 := by
          simp [countResolved, List.filter_cons, huid]
        rw [lookupA_bump_self, hcr]
        simp
      · have hne : ¬ (lookupA reg smi = some u) := by
          rw [huid]
          simp
          exact fun hh => huu hh.symm
        have hcr : countResolved reg u (smi :: rest) =
            countResolved reg u rest := by
          simp [countResolved, List.filter_cons, hne]
        rw [lookupA_bump_other huu, hcr]

/-- C6: when every token of a reaction side resolves through the
registry and the token `t` is the only token resolving to `uid`,
resolving the side yields a single (deduplicated-key) entry for `uid`
whose coefficient is exactly the number of occurrences of `t`. -/
theorem coefficient_accumulation (reg : List (Str × Str)) (side t uid : Str)
    (hres : ∀ s ∈ splitOnChar '.' side, (lookupA reg s).isSome = true)
    (ht : t ∈ splitOnChar '.' side)
    (huid : lookupA reg t = some uid)
    (hinj : ∀ s ∈ splitOnChar '.' side, lookupA reg s = some uid → s = t) :
    ∃ items, compounds_in_reaction_side reg side = some items ∧
      (items.map Prod.fst).Nodup ∧
      lookupA items uid = some ((splitOnChar '.' side).count t) := by
  obtain ⟨out, hout, hnd, hco, hps⟩ :=
    cirsAux_spec reg (splitOnChar '.' side) [] hres
  refine ⟨out, hout, hnd (by simp), ?_⟩
  have hcnt : countResolved reg uid (splitOnChar '.' side) =
      (splitOnChar '.' side).count t := by
    unfold countResolved
    rw [count_eq_filter_length]
    congr 1
    apply List.filter_congr
    intro s hs
    by_cases hst : s = t
    · subst hst
      simp [huid]
    · have hres2 : ¬ (lookupA reg s = some uid) := fun hh => hst (hinj s hs hh)
      simp [hres2, hst]
  have hpos : 0 < countResolved reg uid (splitOnChar '.' side) := by
    rw [hcnt]
    exact List.count_pos_iff.2 ht
  have hsome : (lookupA out uid).isSome = true := by
    rw [hps uid]
    exact Or.inr hpos
  have hval : coeffAt out uid = (splitOnChar '.' side).count t := by
    rw [hco uid, ← hcnt]
    simp [coeffAt, lookupA]
  cases hlo : lookupA out uid with
  | none => rw [hlo] at hsome; simp at hsome
  | some k =>
    rw [coeffAt, hlo] at hval
    simp only [Option.getD_some] at hval
    rw [hval]

/-- C6 witness: one side of `A.A>>B` resolves to coefficient 2 for the
identifier of `A`. -/
theorem coefficient_accumulation_witness :
    ((splitOnChar '.' ['A', '.', 'A']).count ['A'] = 2) ∧
    ∃ items, compounds_in_reaction_side
        [(['A'], ['u', '1']), (['B'], ['u', '2'])] ['A', '.', 'A'] =
        some items ∧
      (items.map Prod.fst).Nodup ∧
      lookupA items ['u', '1'] =
        some ((splitOnChar '.' ['A', '.', 'A']).count ['A']) :=
  ⟨by decide, coefficient_accumulation [(['A'], ['u', '1']), (['B'], ['u', '2'])]
    ['A', '.', 'A'] ['A'] ['u', '1'] (by decide) (by decide) (by decide)
    (by decide)⟩

/-! ## C2: a failed depiction is recorded and then re-raised -/

/-- C2 evidence: on a graph whose first chemical node fails to render,
`_add_svg_depiction` records `svg = None` on that node and then
re-raises: the traversal aborts (an `.error` escapes) and the remaining
chemical nodes are left unprocessed, instead of continuing without
raising as the specification describes. -/
theorem svg_depiction_failure_raises :
    add_svg_depiction renderFail netW1 =
      .error { nodes := [{ nS with svg := some none }, nR, nT],
               edges := netW1.edges } ∧
    (∀ g : Net, add_svg_depiction renderFail netW1 ≠ .ok g) := by
  constructor
  · decide
  · intro g hg
    have h1 : add_svg_depiction renderFail netW1 =
        .error { nodes := [{ nS with svg := some none }, nR, nT],
                 edges := netW1.edges } := by decide
    rw [h1] at hg
    cases hg

/-! ## Graph lemmas: node sets, sinks, exclusion matching -/

theorem mem_nodeIds {net : Net} {x : Str} :
    x ∈ nodeIds net ↔ ∃ n ∈ net.nodes, n.id = x := by
  simp [nodeIds, List.mem_map]

theorem mem_get_sinks {net : Net} {s : Str} :
    s ∈ get_sinks net ↔ IsSinkNode net s := by
  simp only [get_sinks, IsSinkNode, List.mem_map, List.mem_filter]
  constructor
  · rintro ⟨n, ⟨hn, hsk⟩, hid⟩
    exact ⟨n, hn, hid, by simpa using hsk⟩
  · rintro ⟨n, hn, hid, hsk⟩
    exact ⟨n, ⟨hn, by simp [hsk]⟩, hid⟩

theorem get_sinks_subset {net : Net} {s : Str} (h : s ∈ get_sinks net) :
    s ∈ nodeIds net := by
  obtain ⟨n, hn, hid, _⟩ := mem_get_sinks.1 h
  exact mem_nodeIds.2 ⟨n, hn, hid⟩

theorem mem_matching_aux (inchis : List Str) : ∀ (ns : List NNode)
    (acc : List Str) (x : Str),
    (x ∈ ns.foldl (fun acc n =>
      match n.inchi with
      | some v => if v ∈ inchis ∧ n.id ∉ acc then acc ++ [n.id] else acc
      | none => acc) acc ↔
    x ∈ acc ∨ ∃ n ∈ ns, n.id = x ∧ ∃ v, n.inchi = some v ∧ v ∈ inchis) := by
  intro ns
  induction ns with
  | nil => intro acc x; simp
  | cons n rest ih =>
    intro acc x
    simp only [List.foldl_cons]
    cases hin : n.inchi with
    | none =>
      simp only [hin]
      rw [ih]
      constructor
      · rintro (h1 | ⟨m, hm, hrest⟩)
        · exact Or.inl h1
        · exact Or.inr ⟨m, List.mem_cons_of_mem _ hm, hrest⟩
      · rintro (h1 | ⟨m, hm, hid, v, hv, hvi⟩)
        · exact Or.inl h1
        · rcases List.mem_cons.1 hm with h2 | h3
          · subst h2; rw [hin] at hv; cases hv
          · exact Or.inr ⟨m, h3, hid, v, hv, hvi⟩
    | some v =>
      simp only [hin]
      by_cases hcond : v ∈ inchis ∧ n.id ∉ acc
      · rw [if_pos hcond, ih]
        constructor
        · rintro (h1 | ⟨m, hm, hrest⟩)
          · rcases List.mem_append.1 h1 with h2 | h3
            · exact Or.inl h2
            · right
              exact ⟨n, List.mem_cons_self _ _,
                (List.mem_singleton.1 h3).symm, v, hin, hcond.1⟩
          · exact Or.inr ⟨m, List.mem_cons_of_mem _ hm, hrest⟩
        · rintro (h1 | ⟨m, hm, hid, w, hw, hwi⟩)
          · exact Or.inl (List.mem_append_left _ h1)
          · rcases List.mem_cons.1 hm with h2 | h3
            · subst h2
              exact Or.inl (List.mem_append_right _ (by simp [← hid]))
            · exact Or.inr ⟨m, h3, hid, w, hw, hwi⟩
      · rw [if_neg hcond, ih]
        constructor
        · rintro (h1 | ⟨m, hm, hrest⟩)
          · exact Or.inl h1
          · exact Or.inr ⟨m, List.mem_cons_of_mem _ hm, hrest⟩
        · rintro (h1 | ⟨m, hm, hid, w, hw, hwi⟩)
          · exact Or.inl h1
          · rcases List.mem_cons.1 hm with h2 | h3
            · rw [h2] at hid hw
              rw [hin] at hw
              injection hw with hwv
              subst hwv
              have hidacc : n.id ∈ acc := by
                by_contra hno
                exact hcond ⟨hwi, hno⟩
              exact Or.inl (hid ▸ hidacc)
            · exact Or.inr ⟨m, h3, hid, w, hw, hwi⟩

theorem mem_matching_inchis {net : Net} {inchis : List Str} {x : Str} :
    x ∈ get_nodes_matching_inchis net inchis ↔ MatchesSkip net inchis x := by
  rw [get_nodes_matching_inchis, mem_matching_aux, MatchesSkip]
  simp

/-! ## Walk lemmas -/

theorem mem_of_getLast? : ∀ {l : List Str} {a : Str}, l.getLast? = some a → a ∈ l := by
  intro l
  induction l with
  | nil => intro a h; cases h
  | cons b l2 ih =>
    intro a h
    cases l2 with
    | nil =>
      simp at h
      simp [h]
    | cons c l3 =>
      rw [List.getLast?_cons_cons] at h
      exact List.mem_cons_of_mem _ (ih h)

theorem mem_neighborsOf {net : Net} {a b : Str} :
    b ∈ neighborsOf net a ↔ b ∈ nodeIds net ∧ adjacentB net a b = true := by
  simp [neighborsOf, List.mem_filter]

theorem spAux_sound {net : Net} : ∀ (fuel : Nat) (visited : List Str)
    (c t : Str) (p : List Str), p ∈ spAux net fuel visited c t →
    p.head? = some c ∧ p.getLast? = some t ∧ List.Chain' (AdjP net) p ∧
      p.Nodup ∧ ∀ x ∈ p, x = c ∨ (x ∈ nodeIds net ∧ x ∉ visited ∧ x ≠ c) := by
  intro fuel
  induction fuel with
  | zero =>
    intro visited c t p hp
    simp [spAux] at hp
  | succ f ih =>
    intro visited c t p hp
    by_cases hct : c = t
    · simp only [spAux, if_pos hct, List.mem_singleton] at hp
      subst hp
      exact ⟨rfl, by simp [hct], by simp, by simp, by simp⟩
    · simp only [spAux, if_neg hct, List.mem_flatMap] at hp
      obtain ⟨n2, hn2, hpm⟩ := hp
      rw [List.mem_map] at hpm
      obtain ⟨p2, hp2, hpe⟩ := hpm
      subst hpe
      obtain ⟨hh, hl, hc, hnd, hmem⟩ := ih (c :: visited) n2 t p2 hp2
      rw [List.mem_filter] at hn2
      obtain ⟨hn2nb, hn2cond⟩ := hn2
      have hn2c : n2 ∉ visited ∧ n2 ≠ c := by simpa using hn2cond
      have hn2nodes : n2 ∈ nodeIds net ∧ adjacentB net c n2 = true :=
        mem_neighborsOf.1 hn2nb
      obtain ⟨b, p3, hp23⟩ : ∃ b p3, p2 = b :: p3 := by
        cases p2 with
        | nil => cases hh
        | cons b p3 => exact ⟨b, p3, rfl⟩
      have hbn2 : n2 = b := by
        rw [hp23] at hh
        exact (by simpa using hh : b = n2).symm
      subst hp23
      subst hbn2
      have hcnotp : c ∉ n2 :: p3 := by
        intro hcp
        rcases hmem c hcp with h1 | h2
        · exact hn2c.2 h1.symm
        · exact h2.2.1 (List.mem_cons_self _ _)
      refine ⟨rfl, ?_, ?_, ?_, ?_⟩
      · rw [List.getLast?_cons_cons]
        exact hl
      · rw [List.chain'_cons]
        exact ⟨hn2nodes.2, hc⟩
      · rw [List.nodup_cons]
        exact ⟨hcnotp, hnd⟩
      · intro x hx
        rcases List.mem_cons.1 hx with h1 | h2
        · exact Or.inl h1
        · rcases hmem x h2 with h3 | h4
          · subst h3
            exact Or.inr ⟨hn2nodes.1, hn2c.1, hn2c.2⟩
          · refine Or.inr ⟨h4.1, ?_, ?_⟩
            · intro hv
              exact h4.2.1 (List.mem_cons_of_mem _ hv)
            · intro hxc
              exact h4.2.1 (hxc ▸ List.mem_cons_self _ _)

theorem spAux_complete {net : Net} : ∀ (p : List Str) (fuel : Nat)
    (visited : List Str) (c t : Str),
    p.head? = some c → p.getLast? = some t → List.Chain' (AdjP net) p →
    p.Nodup → (∀ x ∈ p, x ∈ nodeIds net) →
    (∀ x ∈ p, x ≠ c → x ∉ visited) → p.length ≤ fuel →
    p ∈ spAux net fuel visited c t := by
  intro p
  induction p with
  | nil => intro fuel visited c t hh; cases hh
  | cons a p2 ih =>
    intro fuel visited c t hh hl hch hnd hmem havoid hlen
    have hac : a = c := by simpa using hh
    subst hac
    cases fuel with
    | zero => simp at hlen
    | succ f =>
      by_cases hct : a = t
      · cases p2 with
        | nil =>
          simp only [spAux, if_pos hct, List.mem_singleton]
        | cons b p3 =>
          exfalso
          rw [List.getLast?_cons_cons] at hl
          have htmem : t ∈ b :: p3 := mem_of_getLast? hl
          rw [List.nodup_cons] at hnd
          exact hnd.1 (hct ▸ htmem)
      · simp only [spAux, if_neg hct, List.mem_flatMap]
        cases p2 with
        | nil =>
          exfalso
          have : a = t := by simpa using hl
          exact hct this
        | cons b p3 =>
          have hab : AdjP net a b := (List.chain'_cons.1 hch).1
          have hba : b ≠ a := by
            rw [List.nodup_cons] at hnd
            intro hh2
            exact hnd.1 (hh2 ▸ List.mem_cons_self _ _)
          have hbv : b ∉ visited := havoid b (by simp) hba
          refine ⟨b, ?_, ?_⟩
          · rw [List.mem_filter]
            refine ⟨mem_neighborsOf.2 ⟨hmem b (by simp), hab⟩, ?_⟩
            simp [hbv, hba]
          · rw [List.mem_map]
            refine ⟨b :: p3, ?_, rfl⟩
            have hnd2 : (b :: p3).Nodup := (List.nodup_cons.1 hnd).2
            have hanotp : a ∉ b :: p3 := (List.nodup_cons.1 hnd).1
            apply ih f (a :: visited) b t rfl
            · rw [List.getLast?_cons_cons] at hl
              exact hl
            · exact (List.chain'_cons.1 hch).2
            · exact hnd2
            · intro x hx
              exact hmem x (List.mem_cons_of_mem _ hx)
            · intro x hx hxb
              have hxa : x ≠ a := fun hh2 => hanotp (hh2 ▸ hx)
              have hxv : x ∉ visited := havoid x (List.mem_cons_of_mem _ hx) hxa
              simp [hxa, hxv]
            · simpa using hlen

theorem dup_split {p : List Str} (h : ¬ p.Nodup) :
    ∃ u x v w, p = u ++ x :: v ++ x :: w := by
  induction p with
  | nil => exact absurd List.nodup_nil h
  | cons a q ih =>
    by_cases haq : a ∈ q
    · obtain ⟨v, w, hvw⟩ := List.append_of_mem haq
      exact ⟨[], a, v, w, by simp [hvw]⟩
    · have hq : ¬ q.Nodup := by
        intro hh
        exact h (List.nodup_cons.2 ⟨haq, hh⟩)
      obtain ⟨u, x, v, w, huvw⟩ := ih hq
      exact ⟨a :: u, x, v, w, by simp [huvw]⟩

theorem getLast?_append_right {l₁ l₂ : List Str} (h : l₂ ≠ []) :
    (l₁ ++ l₂).getLast? = l₂.getLast? := by
  induction l₁ with
  | nil => rfl
  | cons a l1 ih =>
    obtain ⟨b, rest, hbr⟩ : ∃ b rest, l1 ++ l₂ = b :: rest := by
      cases hl1 : l1 ++ l₂ with
      | nil =>
        simp only [List.append_eq_nil] at hl1
        exact absurd hl1.2 h
      | cons b rest => exact ⟨b, rest, rfl⟩
    rw [List.cons_append, hbr, List.getLast?_cons_cons, ← hbr, ih]

theorem walk_shorten {net : Net} {s t : Str} {u v w : List Str} {x : Str}
    (h : IsUWalk net s t (u ++ x :: v ++ x :: w)) :
    IsUWalk net s t (u ++ x :: w) ∧
      (u ++ x :: w).length < (u ++ x :: v ++ x :: w).length := by
  obtain ⟨hh, hl, hch, hmem⟩ := h
  constructor
  · refine ⟨?_, ?_, ?_, ?_⟩
    · cases u with
      | nil => simpa using hh
      | cons a u2 => simpa using hh
    · have h1 : (u ++ x :: v ++ x :: w).getLast? = (x :: w).getLast? :=
        getLast?_append_right (by simp)
      rw [getLast?_append_right (by simp : x :: w ≠ [])]
      exact h1.symm.trans hl
    · rw [List.chain'_append] at hch
      obtain ⟨hcuv, hcxw, _⟩ := hch
      rw [List.chain'_append] at hcuv
      obtain ⟨hcu, _, hlinku⟩ := hcuv
      rw [List.chain'_append]
      refine ⟨hcu, hcxw, ?_⟩
      intro y hy z hz
      have hzx : x = z := by simpa using hz
      subst hzx
      exact hlinku y hy x rfl
    · intro y hy
      apply hmem
      rcases List.mem_append.1 hy with h1 | h2
      · exact List.mem_append_left _ (List.mem_append_left _ h1)
      · rcases List.mem_cons.1 h2 with h3 | h4
        · subst h3
          exact List.mem_append_right _ (List.mem_cons_self _ _)
        · exact List.mem_append_right _ (List.mem_cons_of_mem _ h4)
  · simp only [List.length_append, List.length_cons]
    omega

theorem walk_to_nodup {net : Net} {s t : Str} :
    ∀ (n : Nat) (p : List Str), p.length ≤ n → IsUWalk net s t p →
    ∃ q, IsUWalk net s t q ∧ q.Nodup ∧ q.length ≤ p.length := by
  intro n
  induction n with
  | zero =>
    intro p hlen hw
    obtain ⟨hh, _, _, _⟩ := hw
    cases p with
    | nil => cases hh
    | cons a q => simp at hlen
  | succ m ih =>
    intro p hlen hw
    by_cases hnd : p.Nodup
    · exact ⟨p, hw, hnd, le_refl _⟩
    · obtain ⟨u, x, v, w, hsplit⟩ := dup_split hnd
      rw [hsplit] at hw
      obtain ⟨hw2, hlt⟩ := walk_shorten hw
      have hlen2 : (u ++ x :: w).length ≤ m := by
        rw [hsplit] at hlen
        omega
      obtain ⟨q, hq, hqnd, hqlen⟩ := ih (u ++ x :: w) hlen2 hw2
      refine ⟨q, hq, hqnd, ?_⟩
      rw [hsplit]
      omega

theorem walk_length_le_nodes {net : Net} {s t : Str} {p : List Str}
    (hw : IsUWalk net s t p) (hnd : p.Nodup) :
    p.length ≤ net.nodes.length := by
  obtain ⟨_, _, _, hmem⟩ := hw
  calc p.length = p.toFinset.card := (List.toFinset_card_of_nodup hnd).symm
    _ ≤ (nodeIds net).toFinset.card := Finset.card_le_card (fun x hx => by
        simp only [List.mem_toFinset] at hx ⊢
        exact hmem x hx)
    _ ≤ (nodeIds net).length := List.toFinset_card_le _
    _ = net.nodes.length := by simp [nodeIds]

theorem mem_simplePathsBetween {net : Net} {s t : Str} {p : List Str}
    (hs : s ∈ nodeIds net) :
    p ∈ simplePathsBetween net s t ↔ IsUWalk net s t p ∧ p.Nodup := by
  constructor
  · intro hp
    obtain ⟨hh, hl, hch, hnd, hmem⟩ := spAux_sound net.nodes.length [] s t p hp
    refine ⟨⟨hh, hl, hch, ?_⟩, hnd⟩
    intro x hx
    rcases hmem x hx with h1 | h2
    · exact h1 ▸ hs
    · exact h2.1
  · rintro ⟨⟨hh, hl, hch, hmem⟩, hnd⟩
    exact spAux_complete p net.nodes.length [] s t hh hl hch hnd hmem
      (by intro x _ _; simp)
      (walk_length_le_nodes ⟨hh, hl, hch, hmem⟩ hnd)

theorem minLength_le : ∀ (qs : List (List Str)) (m : Nat),
    minLength qs m ≤ m ∧ ∀ q ∈ qs, minLength qs m ≤ q.length := by
  intro qs
  induction qs with
  | nil => intro m; exact ⟨le_refl m, by simp⟩
  | cons q qs2 ih =>
    intro m
    obtain ⟨h1, h2⟩ := ih (min m q.length)
    refine ⟨?_, ?_⟩
    · show minLength qs2 (min m q.length) ≤ m
      exact h1.trans (min_le_left _ _)
    · intro r hr
      rcases List.mem_cons.1 hr with h3 | h4
      · subst h3
        show minLength qs2 (min m r.length) ≤ r.length
        exact h1.trans (min_le_right _ _)
      · exact h2 r h4

theorem minLength_attained : ∀ (qs : List (List Str)) (m : Nat),
    minLength qs m = m ∨ ∃ q ∈ qs, q.length = minLength qs m := by
  intro qs
  induction qs with
  | nil => intro m; exact Or.inl rfl
  | cons q qs2 ih =>
    intro m
    rcases ih (min m q.length) with h1 | ⟨r, hr, hrl⟩
    · by_cases hmq : m ≤ q.length
      · left
        show minLength qs2 (min m q.length) = m
        rw [h1, min_eq_left hmq]
      · right
        refine ⟨q, by simp, ?_⟩
        show q.length = minLength qs2 (min m q.length)
        rw [h1, min_eq_right (le_of_not_le hmq)]
    · exact Or.inr ⟨r, List.mem_cons_of_mem _ hr, hrl⟩

theorem no_walk_of_target_not_node {net : Net} {s t : Str}
    (ht : t ∉ nodeIds net) : ∀ p, ¬ IsUWalk net s t p := by
  intro p hw
  obtain ⟨_, hl, _, hmem⟩ := hw
  exact ht (hmem t (mem_of_getLast? hl))

theorem all_shortest_paths_notFound {net : Net} {s t : Str}
    (hs : s ∉ nodeIds net) :
    all_shortest_paths net s t = .error .nodeNotFound := by
  simp [all_shortest_paths, hs]

theorem all_shortest_paths_noPath {net : Net} {s t : Str}
    (hs : s ∈ nodeIds net) (hnw : ∀ p, ¬ IsUWalk net s t p) :
    all_shortest_paths net s t = .error .noPath := by
  cases hps : simplePathsBetween net s t with
  | nil => simp [all_shortest_paths, hs, hps]
  | cons r0 rest =>
    exfalso
    have hr0 : r0 ∈ simplePathsBetween net s t := by
      rw [hps]
      exact List.mem_cons_self _ _
    exact hnw r0 ((mem_simplePathsBetween hs).1 hr0).1

theorem all_shortest_paths_ok {net : Net} {s t : Str}
    (hs : s ∈ nodeIds net) (hex : ∃ p, IsUWalk net s t p) :
    ∃ L, all_shortest_paths net s t = .ok L ∧
      ∀ p, (p ∈ L ↔ IsUWalk net s t p ∧
        ∀ q, IsUWalk net s t q → p.length ≤ q.length) := by
  obtain ⟨p0w, hp0w⟩ := hex
  obtain ⟨q0, hq0, hq0nd, _⟩ := walk_to_nodup p0w.length p0w (le_refl _) hp0w
  have hq0mem : q0 ∈ simplePathsBetween net s t :=
    (mem_simplePathsBetween hs).2 ⟨hq0, hq0nd⟩
  cases hps : simplePathsBetween net s t with
  | nil => rw [hps] at hq0mem; cases hq0mem
  | cons r0 rest =>
    refine ⟨(r0 :: rest).filter
      (fun q => q.length = minLength rest r0.length), ?_, ?_⟩
    · simp [all_shortest_paths, hs, hps]
    · intro p
      have hmle : ∀ q ∈ r0 :: rest, minLength rest r0.length ≤ q.length := by
        intro q hq
        rcases List.mem_cons.1 hq with h1 | h2
        · subst h1
          exact (minLength_le rest q.length).1
        · exact (minLength_le rest r0.length).2 q h2
      have hmatt : ∃ q ∈ r0 :: rest, q.length = minLength rest r0.length := by
        rcases minLength_attained rest r0.length with h1 | ⟨q, hq, hql⟩
        · exact ⟨r0, by simp, h1.symm⟩
        · exact ⟨q, List.mem_cons_of_mem _ hq, hql⟩
      have hmemps : ∀ q, q ∈ r0 :: rest ↔ IsUWalk net s t q ∧ q.Nodup := by
        intro q
        rw [← hps]
        exact mem_simplePathsBetween hs
      constructor
      · intro hp
        rw [List.mem_filter] at hp
        obtain ⟨hpps, hplen⟩ := hp
        have hplen2 : p.length = minLength rest r0.length := by simpa using hplen
        obtain ⟨hpw, _⟩ := (hmemps p).1 hpps
        refine ⟨hpw, ?_⟩
        intro q hqw
        obtain ⟨q2, hq2w, hq2nd, hq2len⟩ := walk_to_nodup q.length q (le_refl _) hqw
        have hq2mem : q2 ∈ r0 :: rest := (hmemps q2).2 ⟨hq2w, hq2nd⟩
        calc p.length = minLength rest r0.length := hplen2
          _ ≤ q2.length := hmle q2 hq2mem
          _ ≤ q.length := hq2len
      · rintro ⟨hpw, hmin⟩
        have hpnd : p.Nodup := by
          by_contra hnd
          obtain ⟨u, x, v, w, hsplit⟩ := dup_split hnd
          have hpw2 := hpw
          rw [hsplit] at hpw2
          obtain ⟨hw2, hlt⟩ := walk_shorten hpw2
          have hmin2 := hmin _ hw2
          have hplen : p.length = (u ++ x :: v ++ x :: w).length := by
            rw [hsplit]
          omega
        have hpmem : p ∈ r0 :: rest := (hmemps p).2 ⟨hpw, hpnd⟩
        rw [List.mem_filter]
        refine ⟨hpmem, ?_⟩
        obtain ⟨q, hq, hql⟩ := hmatt
        have hqw : IsUWalk net s t q := ((hmemps q).1 hq).1
        have h1 : p.length ≤ q.length := hmin q hqw
        have h2 : minLength rest r0.length ≤ p.length := hmle p hpmem
        simp only [decide_eq_true_eq]
        omega

theorem gatherKeep_spec (net : Net) (cof : List Str) (tid : Str) :
    ∀ (sids acc : List Str), (∀ sid ∈ sids, sid ∈ nodeIds net) →
    ∃ keep, gatherKeep net cof tid sids acc = .ok keep ∧
      ∀ x, (x ∈ keep ↔ x ∈ acc ∨ ∃ sid ∈ sids, ∃ p,
        (IsUWalk net sid tid p ∧
          (∀ q, IsUWalk net sid tid q → p.length ≤ q.length) ∧
          ∀ y ∈ p, y ∉ cof) ∧ x ∈ p) := by
  intro sids
  induction sids with
  | nil =>
    intro acc _
    exact ⟨acc, rfl, fun x => by simp⟩
  | cons sid rest ih =>
    intro acc h
    have hsid : sid ∈ nodeIds net := h sid (by simp)
    have haccept : ∀ p : List Str,
        ((! p.any (fun x => decide (x ∈ cof))) = true ↔ ∀ y ∈ p, y ∉ cof) := by
      intro p
      simp
    by_cases hex : ∃ p, IsUWalk net sid tid p
    · obtain ⟨L, hL, hLiff⟩ := all_shortest_paths_ok hsid hex
      obtain ⟨keep, hkeep, hiff⟩ := ih
        (acc ++ (L.filter (fun p => ! p.any (fun x => decide (x ∈ cof)))).flatten)
        (fun s2 hs2 => h s2 (by simp [hs2]))
      refine ⟨keep, ?_, ?_⟩
      · simp only [gatherKeep, hL]
        exact hkeep
      · intro x
        rw [hiff x]
        constructor
        · rintro (hacc | ⟨sid2, hsid2, p, hp, hxp⟩)
          · rcases List.mem_append.1 hacc with h1 | h2
            · exact Or.inl h1
            · rw [List.mem_flatten] at h2
              obtain ⟨p, hpf, hxp⟩ := h2
              rw [List.mem_filter] at hpf
              obtain ⟨hpL, hpacc⟩ := hpf
              obtain ⟨hpw, hpmin⟩ := (hLiff p).1 hpL
              exact Or.inr ⟨sid, List.mem_cons_self _ _, p,
                ⟨hpw, hpmin, (haccept p).1 hpacc⟩, hxp⟩
          · exact Or.inr ⟨sid2, List.mem_cons_of_mem _ hsid2, p, hp, hxp⟩
        · rintro (h1 | ⟨sid2, hsid2, p, hp, hxp⟩)
          · exact Or.inl (List.mem_append_left _ h1)
          · rcases List.mem_cons.1 hsid2 with h2 | h3
            · subst h2
              refine Or.inl (List.mem_append_right _ ?_)
              rw [List.mem_flatten]
              refine ⟨p, ?_, hxp⟩
              rw [List.mem_filter]
              exact ⟨(hLiff p).2 ⟨hp.1, hp.2.1⟩, (haccept p).2 hp.2.2⟩
            · exact Or.inr ⟨sid2, h3, p, hp, hxp⟩
    · push_neg at hex
      have hnp := all_shortest_paths_noPath hsid hex
      obtain ⟨keep, hkeep, hiff⟩ := ih acc (fun s2 hs2 => h s2 (by simp [hs2]))
      refine ⟨keep, ?_, ?_⟩
      · simp only [gatherKeep, hnp]
        exact hkeep
      · intro x
        rw [hiff x]
        constructor
        · rintro (h1 | ⟨sid2, hsid2, hrest⟩)
          · exact Or.inl h1
          · exact Or.inr ⟨sid2, List.mem_cons_of_mem _ hsid2, hrest⟩
        · rintro (h1 | ⟨sid2, hsid2, p, hp, hxp⟩)
          · exact Or.inl h1
          · rcases List.mem_cons.1 hsid2 with h2 | h3
            · subst h2
              exact absurd hp.1 (hex p)
            · exact Or.inr ⟨sid2, h3, p, hp, hxp⟩

/-! ## C1, C8, C10: pruning -/

/-- C1: for an assembled graph (edge endpoints are nodes) whose target
identifier is a node, pruning succeeds and the surviving node set is
exactly the union, over all sink nodes, of the nodes lying on some
shortest undirected sink-to-target path avoiding the exclusion set; an
edge survives exactly when both its endpoints survive. -/
theorem keep_source_to_sink_characterization (net : Net) (to_skip : List Str)
    (tid : Str) (hWF : EdgesWellFormed net) (_hT : tid ∈ nodeIds net) :
    ∃ net2, keep_source_to_sink net to_skip tid = .ok net2 ∧
      (∀ x, x ∈ nodeIds net2 ↔ ∃ s, IsSinkNode net s ∧
        ∃ p, IsShortestAccepted net to_skip s tid p ∧ x ∈ p) ∧
      (∀ e, e ∈ net2.edges ↔ e ∈ net.edges ∧
        e.src ∈ nodeIds net2 ∧ e.tgt ∈ nodeIds net2) := by
  obtain ⟨keep, hkeep, hiff⟩ := gatherKeep_spec net
    (get_nodes_matching_inchis net to_skip) tid (get_sinks net) []
    (fun sid hs => get_sinks_subset hs)
  have hkeepiff : ∀ x, x ∈ keep ↔ ∃ s, IsSinkNode net s ∧
      ∃ p, IsShortestAccepted net to_skip s tid p ∧ x ∈ p := by
    intro x
    rw [hiff x]
    simp only [List.not_mem_nil, false_or]
    constructor
    · rintro ⟨sid, hsid, p, ⟨hw, hmin, hnc⟩, hxp⟩
      refine ⟨sid, mem_get_sinks.1 hsid, p, ⟨hw, hmin, ?_⟩, hxp⟩
      intro y hy hms
      exact hnc y hy (mem_matching_inchis.2 hms)
    · rintro ⟨sid, hsid, p, ⟨hw, hmin, hnc⟩, hxp⟩
      refine ⟨sid, mem_get_sinks.2 hsid, p, ⟨hw, hmin, ?_⟩, hxp⟩
      intro y hy hyc
      exact hnc y hy (mem_matching_inchis.1 hyc)
  have hok : keep_source_to_sink net to_skip tid = .ok
      { nodes := net.nodes.filter (fun n => n.id ∈ keep),
        edges := net.edges.filter (fun e =>
          ¬ (e.src ∈ nodeIds net ∧ e.src ∉ keep) ∧
          ¬ (e.tgt ∈ nodeIds net ∧ e.tgt ∉ keep)) } := by
    simp only [keep_source_to_sink, hkeep]
  refine ⟨_, hok, ?_, ?_⟩
  · intro x
    rw [mem_nodeIds]
    constructor
    · rintro ⟨n, hn, hid⟩
      rw [List.mem_filter] at hn
      have hxk : x ∈ keep := hid ▸ (by simpa using hn.2)
      exact (hkeepiff x).1 hxk
    · intro hx
      have hxk : x ∈ keep := (hkeepiff x).2 hx
      obtain ⟨s, _, p, hpa, hxp⟩ := hx
      obtain ⟨n, hn, hid⟩ := mem_nodeIds.1 (hpa.1.2.2.2 x hxp)
      exact ⟨n, List.mem_filter.2 ⟨hn, by simp [hid, hxk]⟩, hid⟩
  · intro e
    rw [List.mem_filter]
    constructor
    · rintro ⟨he, hcond⟩
      have hcond2 : (e.src ∉ nodeIds net ∨ e.src ∈ keep) ∧
          (e.tgt ∉ nodeIds net ∨ e.tgt ∈ keep) := by simpa using hcond
      have hsrc : e.src ∈ keep := by
        rcases hcond2.1 with h1 | h1
        · exact absurd (hWF e he).1 h1
        · exact h1
      have htgt : e.tgt ∈ keep := by
        rcases hcond2.2 with h1 | h1
        · exact absurd (hWF e he).2 h1
        · exact h1
      refine ⟨he, ?_, ?_⟩
      · obtain ⟨n, hn, hid⟩ := mem_nodeIds.1 (hWF e he).1
        exact mem_nodeIds.2 ⟨n, List.mem_filter.2 ⟨hn, by simp [hid, hsrc]⟩, hid⟩
      · obtain ⟨n, hn, hid⟩ := mem_nodeIds.1 (hWF e he).2
        exact mem_nodeIds.2 ⟨n, List.mem_filter.2 ⟨hn, by simp [hid, htgt]⟩, hid⟩
    · rintro ⟨he, hsrc2, htgt2⟩
      have hsrck : e.src ∈ keep := by
        obtain ⟨n, hn, hid⟩ := mem_nodeIds.1 hsrc2
        rw [List.mem_filter] at hn
        exact hid ▸ (by simpa using hn.2)
      have htgtk : e.tgt ∈ keep := by
        obtain ⟨n, hn, hid⟩ := mem_nodeIds.1 htgt2
        rw [List.mem_filter] at hn
        exact hid ▸ (by simpa using hn.2)
      exact ⟨he, by simp [hsrck, htgtk]⟩

/-- C1 witness: on the three-node chain sink `S` – reaction `R` – target
`T`, pruning keeps exactly the accepted-shortest-path union. -/
theorem keep_source_to_sink_characterization_witness :
    EdgesWellFormed netW1 ∧ ['T'] ∈ nodeIds netW1 ∧
    (∃ net2, keep_source_to_sink netW1 [] ['T'] = .ok net2 ∧
      (∀ x, x ∈ nodeIds net2 ↔ ∃ s, IsSinkNode netW1 s ∧
        ∃ p, IsShortestAccepted netW1 [] s ['T'] p ∧ x ∈ p) ∧
      (∀ e, e ∈ net2.edges ↔ e ∈ netW1.edges ∧
        e.src ∈ nodeIds net2 ∧ e.tgt ∈ nodeIds net2)) :=
  ⟨by decide, by decide,
    keep_source_to_sink_characterization netW1 [] ['T'] (by decide) (by decide)⟩

/-- C8: pruning an assembled graph never raises — the no-path condition
is caught per sink and a missing-node condition cannot occur since every
sink is a graph node — and when no sink has an accepted shortest path to
the target, the result is the empty graph, a normal return value. -/
theorem pruning_skip_and_empty (net : Net) (to_skip : List Str) (tid : Str)
    (hWF : EdgesWellFormed net) :
    ∃ net2, keep_source_to_sink net to_skip tid = .ok net2 ∧
      ((∀ s, IsSinkNode net s →
          ∀ p, ¬ IsShortestAccepted net to_skip s tid p) →
        net2.nodes = [] ∧ net2.edges = []) := by
  obtain ⟨keep, hkeep, hiff⟩ := gatherKeep_spec net
    (get_nodes_matching_inchis net to_skip) tid (get_sinks net) []
    (fun sid hs => get_sinks_subset hs)
  have hok : keep_source_to_sink net to_skip tid = .ok
      { nodes := net.nodes.filter (fun n => n.id ∈ keep),
        edges := net.edges.filter (fun e =>
          ¬ (e.src ∈ nodeIds net ∧ e.src ∉ keep) ∧
          ¬ (e.tgt ∈ nodeIds net ∧ e.tgt ∉ keep)) } := by
    simp only [keep_source_to_sink, hkeep]
  refine ⟨_, hok, ?_⟩
  intro hnone
  have hkeepnil : keep = [] := by
    rw [List.eq_nil_iff_forall_not_mem]
    intro x hx
    rcases (hiff x).1 hx with h1 | ⟨sid, hsid, p, hp, _⟩
    · simp at h1
    · exact hnone sid (mem_get_sinks.1 hsid) p
        ⟨hp.1, hp.2.1, fun y hy hms => hp.2.2 y hy (mem_matching_inchis.2 hms)⟩
  constructor
  · simp [hkeepnil]
  · rw [List.filter_eq_nil_iff]
    intro e he
    simp [hkeepnil, (hWF e he).1]

/-- C8 witness: a graph with no sink node prunes, without raising, to
the empty graph. -/
theorem pruning_skip_and_empty_witness :
    EdgesWellFormed netW8 ∧
    (∃ net2, keep_source_to_sink netW8 [] ['Z'] = .ok net2 ∧
      net2.nodes = [] ∧ net2.edges = []) := by
  refine ⟨by decide, ?_⟩
  obtain ⟨net2, hok, hempty⟩ := pruning_skip_and_empty netW8 [] ['Z'] (by decide)
  refine ⟨net2, hok, hempty ?_⟩
  intro s hs p _
  obtain ⟨n, hn, _, hsk⟩ := hs
  simp only [netW8, List.mem_cons, List.not_mem_nil, or_false] at hn
  rcases hn with h1 | h2
  · rw [h1] at hsk
    exact absurd hsk (by decide)
  · rw [h2] at hsk
    exact absurd hsk (by decide)

/-- C10 counterexample: a graph with a sink `S` and a target identifier
`X` that is not a node of the graph — pruning does not raise: the
missing target surfaces as the caught no-path condition, every sink is
skipped, and the empty graph is returned. -/
theorem missing_target_no_raise_cex :
    get_sinks netW1 = [['S']] ∧ (['X'] ∉ nodeIds netW1) ∧
    keep_source_to_sink netW1 [] ['X'] = .ok ⟨[], []⟩ := by
  refine ⟨by decide, by decide, by decide⟩

/-- C10 (amended): when the target identifier is not a node of an
assembled graph, the path search finds no path for any sink, the caught
no-path condition skips every sink, and pruning returns the empty graph
instead of raising; the uncaught missing-node exception would require a
missing source, which cannot occur since sinks are graph nodes. -/
theorem missing_target_pruning (net : Net) (to_skip : List Str) (tid : Str)
    (hWF : EdgesWellFormed net) (ht : tid ∉ nodeIds net) :
    keep_source_to_sink net to_skip tid = .ok ⟨[], []⟩ := by
  obtain ⟨keep, hkeep, hiff⟩ := gatherKeep_spec net
    (get_nodes_matching_inchis net to_skip) tid (get_sinks net) []
    (fun sid hs => get_sinks_subset hs)
  have hkeepnil : keep = [] := by
    rw [List.eq_nil_iff_forall_not_mem]
    intro x hx
    rcases (hiff x).1 hx with h1 | ⟨sid, _, p, hp, _⟩
    · simp at h1
    · exact no_walk_of_target_not_node ht p hp.1
  have hok : keep_source_to_sink net to_skip tid = .ok
      { nodes := net.nodes.filter (fun n => n.id ∈ keep),
        edges := net.edges.filter (fun e =>
          ¬ (e.src ∈ nodeIds net ∧ e.src ∉ keep) ∧
          ¬ (e.tgt ∈ nodeIds net ∧ e.tgt ∉ keep)) } := by
    simp only [keep_source_to_sink, hkeep]
  rw [hok]
  have h1 : net.nodes.filter (fun n => n.id ∈ keep) = [] := by
    simp [hkeepnil]
  have h2 : net.edges.filter (fun e =>
      ¬ (e.src ∈ nodeIds net ∧ e.src ∉ keep) ∧
      ¬ (e.tgt ∈ nodeIds net ∧ e.tgt ∉ keep)) = [] := by
    rw [List.filter_eq_nil_iff]
    intro e he
    simp [hkeepnil, (hWF e he).1]
  rw [h1, h2]

/-- C10 witness: the amended statement evaluated on the `S`–`R`–`T`
graph with the absent target identifier `X`. -/
theorem missing_target_pruning_witness :
    EdgesWellFormed netW1 ∧ (['X'] ∉ nodeIds netW1) ∧
    keep_source_to_sink netW1 [] ['X'] = .ok ⟨[], []⟩ :=
  ⟨by decide, by decide,
    missing_target_pruning netW1 [] ['X'] (by decide) (by decide)⟩

/-! ## C9: assembly and edge identifiers -/

theorem pairwise_key_unique {l : List NEdge}
    (h : List.Pairwise (fun e1 e2 => ¬ (e1.src = e2.src ∧ e1.tgt = e2.tgt)) l) :
    ∀ e1 ∈ l, ∀ e2 ∈ l, e1.src = e2.src → e1.tgt = e2.tgt → e1 = e2 := by
  induction l with
  | nil => intro e1 h1; cases h1
  | cons a t ih =>
    rw [List.pairwise_cons] at h
    intro e1 he1 e2 he2 hsrc htgt
    rcases List.mem_cons.1 he1 with h1 | h1 <;>
      rcases List.mem_cons.1 he2 with h2 | h2
    · rw [h1, h2]
    · subst h1
      exact absurd ⟨hsrc, htgt⟩ (h.1 e2 h2)
    · subst h2
      exact absurd ⟨hsrc.symm, htgt.symm⟩ (h.1 e1 h1)
    · exact ih h.2 e1 h1 e2 h2 hsrc htgt

theorem edges_ensureNode (net : Net) (i : Str) :
    (ensureNode net i).edges = net.edges := by
  unfold ensureNode
  split <;> rfl

theorem mem_nodeIds_ensureNode {net : Net} {i x : Str} :
    x ∈ nodeIds (ensureNode net i) ↔ x ∈ nodeIds net ∨ x = i := by
  unfold ensureNode
  by_cases h : net.nodes.any (fun m => m.id = i)
  · rw [if_pos h]
    constructor
    · exact Or.inl
    · rintro (h1 | h1)
      · exact h1
      · subst h1
        rw [List.any_eq_true] at h
        obtain ⟨m, hm, hmi⟩ := h
        exact mem_nodeIds.2 ⟨m, hm, by simpa using hmi⟩
  · rw [if_neg h]
    simp [nodeIds]

theorem edges_addNodeWith (f : NNode → NNode → NNode) (net : Net) (n : NNode) :
    (addNodeWith f net n).edges = net.edges := by
  unfold addNodeWith
  split <;> rfl

theorem mem_nodeIds_addNodeWith {f : NNode → NNode → NNode} {net : Net}
    {n : NNode} (hf : ∀ m, m.id = n.id → (f m n).id = m.id) :
    ∀ x, (x ∈ nodeIds (addNodeWith f net n) ↔ x ∈ nodeIds net ∨ x = n.id) := by
  intro x
  unfold addNodeWith
  by_cases h : net.nodes.any (fun m => m.id = n.id)
  · rw [if_pos h]
    have hsame : (net.nodes.map (fun m =>
        if m.id = n.id then f m n else m)).map (fun m => m.id) =
        net.nodes.map (fun m => m.id) := by
      rw [List.map_map]
      apply List.map_congr_left
      intro m _
      by_cases hm : m.id = n.id
      · simp [hm, hf m hm]
      · simp [hm]
    constructor
    · intro h1
      exact Or.inl (by simpa [nodeIds, hsame] using h1)
    · rintro (h1 | h1)
      · simpa [nodeIds, hsame] using h1
      · subst h1
        rw [List.any_eq_true] at h
        obtain ⟨m, hm, hmi⟩ := h
        have : n.id ∈ nodeIds net := mem_nodeIds.2 ⟨m, hm, by simpa using hmi⟩
        simpa [nodeIds, hsame] using this
  · rw [if_neg h]
    simp [nodeIds]

theorem wf_addNodeWith {f : NNode → NNode → NNode} {net : Net} {n : NNode}
    (hf : ∀ m, m.id = n.id → (f m n).id = m.id)
    (h : EdgesWellFormed net) : EdgesWellFormed (addNodeWith f net n) := by
  intro e he
  rw [edges_addNodeWith] at he
  exact ⟨(mem_nodeIds_addNodeWith hf _).2 (Or.inl (h e he).1),
    (mem_nodeIds_addNodeWith hf _).2 (Or.inl (h e he).2)⟩

theorem keys_addNodeWith {f : NNode → NNode → NNode} {net : Net} {n : NNode}
    (h : EdgeKeysDistinct net) : EdgeKeysDistinct (addNodeWith f net n) := by
  unfold EdgeKeysDistinct
  rw [edges_addNodeWith]
  exact h

theorem addEdge_def (net : Net) (s t : Str) (c : Nat) :
    addEdge net s t c =
      (if (ensureNode (ensureNode net s) t).edges.any
          (fun e => e.src = s ∧ e.tgt = t) then
        { ensureNode (ensureNode net s) t with
          edges := (ensureNode (ensureNode net s) t).edges.map (fun e =>
            if e.src = s ∧ e.tgt = t then { e with coeff := c } else e) }
      else
        { ensureNode (ensureNode net s) t with
          edges := (ensureNode (ensureNode net s) t).edges ++
            [{ src := s, tgt := t, coeff := c, eid := none }] }) := rfl

theorem nodeIds_addEdge_eq (net : Net) (s t : Str) (c : Nat) :
    nodeIds (addEdge net s t c) = nodeIds (ensureNode (ensureNode net s) t) := by
  rw [addEdge_def]
  split <;> rfl

theorem mem_nodeIds_addEdge {net : Net} {s t x : Str} {c : Nat} :
    x ∈ nodeIds (addEdge net s t c) ↔
      x ∈ nodeIds net ∨ x = s ∨ x = t := by
  rw [nodeIds_addEdge_eq, mem_nodeIds_ensureNode, mem_nodeIds_ensureNode]
  tauto

theorem addEdge_cases {net : Net} {s t : Str} {c : Nat} {e : NEdge}
    (he : e ∈ (addEdge net s t c).edges) :
    (∃ e0 ∈ net.edges, e.src = e0.src ∧ e.tgt = e0.tgt) ∨
      (e.src = s ∧ e.tgt = t) := by
  rw [addEdge_def] at he
  split at he
  · simp only at he
    rw [edges_ensureNode, edges_ensureNode] at he
    rw [List.mem_map] at he
    obtain ⟨e0, he0, heq⟩ := he
    by_cases hke : e0.src = s ∧ e0.tgt = t
    · rw [if_pos hke] at heq
      right
      rw [← heq]
      exact hke
    · rw [if_neg hke] at heq
      exact Or.inl ⟨e0, he0, by rw [← heq], by rw [← heq]⟩
  · simp only at he
    rw [edges_ensureNode, edges_ensureNode] at he
    rcases List.mem_append.1 he with h1 | h2
    · exact Or.inl ⟨e, h1, rfl, rfl⟩
    · right
      rw [List.mem_singleton] at h2
      rw [h2]
      exact ⟨rfl, rfl⟩

theorem wf_addEdge {net : Net} {s t : Str} {c : Nat}
    (h : EdgesWellFormed net) : EdgesWellFormed (addEdge net s t c) := by
  intro e he
  rcases addEdge_cases he with ⟨e0, he0, hsrc, htgt⟩ | ⟨hsrc, htgt⟩
  · exact ⟨mem_nodeIds_addEdge.2 (Or.inl (hsrc ▸ (h e0 he0).1)),
      mem_nodeIds_addEdge.2 (Or.inl (htgt ▸ (h e0 he0).2))⟩
  · exact ⟨mem_nodeIds_addEdge.2 (Or.inr (Or.inl hsrc)),
      mem_nodeIds_addEdge.2 (Or.inr (Or.inr htgt))⟩

theorem keys_addEdge {net : Net} {s t : Str} {c : Nat}
    (h : EdgeKeysDistinct net) : EdgeKeysDistinct (addEdge net s t c) := by
  unfold EdgeKeysDistinct at h ⊢
  rw [addEdge_def]
  split
  next hc =>
    simp only [edges_ensureNode]
    exact h.map _ (fun a b hab => by
      intro hcon
      apply hab
      have ha1 : (if a.src = s ∧ a.tgt = t then ({ a with coeff := c } : NEdge)
          else a).src = a.src := by split <;> rfl
      have ha2 : (if a.src = s ∧ a.tgt = t then ({ a with coeff := c } : NEdge)
          else a).tgt = a.tgt := by split <;> rfl
      have hb1 : (if b.src = s ∧ b.tgt = t then ({ b with coeff := c } : NEdge)
          else b).src = b.src := by split <;> rfl
      have hb2 : (if b.src = s ∧ b.tgt = t then ({ b with coeff := c } : NEdge)
          else b).tgt = b.tgt := by split <;> rfl
      rw [ha1, ha2, hb1, hb2] at hcon
      exact hcon)
  next hc =>
    simp only [edges_ensureNode]
    rw [List.pairwise_append]
    refine ⟨h, by simp, ?_⟩
    intro a ha b hb
    rw [List.mem_singleton] at hb
    subst hb
    rw [edges_ensureNode, edges_ensureNode] at hc
    intro hab
    apply hc
    rw [List.any_eq_true]
    exact ⟨a, ha, by simpa using hab⟩

theorem fold_preserves {α : Type} (P : Net → Prop) (step : Net → α → Net)
    (hstep : ∀ net a, P net → P (step net a)) :
    ∀ (l : List α) (net : Net), P net → P (l.foldl step net) := by
  intro l
  induction l with
  | nil => intro net h; exact h
  | cons a t ih =>
    intro net h
    exact ih _ (hstep net a h)

/-- The combined assembly invariant. -/
def AsmInv (net : Net) : Prop :=
  EdgesWellFormed net ∧ EdgeKeysDistinct net

theorem asmInv_add_compounds {cmpds : List Compound} {net1 : Net}
    (h : add_compounds cmpds emptyNet = some net1) : AsmInv net1 := by
  unfold add_compounds at h
  split at h
  · cases h
  · injection h with h2
    rw [← h2]
    apply fold_preserves AsmInv
    · intro net a hP
      exact ⟨wf_addNodeWith (fun m hm => hm.symm) hP.1, keys_addNodeWith hP.2⟩
    · exact ⟨fun e he => absurd he (by simp [emptyNet]),
        by simp [EdgeKeysDistinct, emptyNet]⟩

theorem asmInv_add_transformations {trss : List Transformation} {net : Net}
    (h : AsmInv net) : AsmInv (add_transformations trss net) := by
  unfold add_transformations
  apply fold_preserves AsmInv
  · intro net2 tr hP
    dsimp only
    apply fold_preserves AsmInv
      (fun a2 (p : Str × Nat) => addEdge a2 tr.trs_id p.1 p.2)
      (fun net3 p hP3 => ⟨wf_addEdge hP3.1, keys_addEdge hP3.2⟩)
    apply fold_preserves AsmInv
      (fun a2 (p : Str × Nat) => addEdge a2 p.1 tr.trs_id p.2)
      (fun net3 p hP3 => ⟨wf_addEdge hP3.1, keys_addEdge hP3.2⟩)
    exact ⟨wf_addNodeWith (fun m hm => hm.symm) hP.1, keys_addNodeWith hP.2⟩
  · exact h

theorem make_edge_ids_spec (net : Net) :
    nodeIds (make_edge_ids net) = nodeIds net ∧
    (∀ e ∈ (make_edge_ids net).edges,
      e.eid = some (e.src ++ sepArrow ++ e.tgt) ∧
      ∃ e0 ∈ net.edges, e.src = e0.src ∧ e.tgt = e0.tgt) ∧
    (AsmInv net → AsmInv (make_edge_ids net)) := by
  refine ⟨rfl, ?_, ?_⟩
  · intro e he
    rw [make_edge_ids, List.mem_map] at he
    obtain ⟨e0, he0, heq⟩ := he
    refine ⟨by rw [← heq], e0, he0, by rw [← heq], by rw [← heq]⟩
  · rintro ⟨hwf, hkeys⟩
    constructor
    · intro e he
      rw [make_edge_ids, List.mem_map] at he
      obtain ⟨e0, he0, heq⟩ := he
      have h0 := hwf e0 he0
      constructor
      · show e.src ∈ nodeIds (make_edge_ids net)
        have : e.src = e0.src := by rw [← heq]
        exact this ▸ h0.1
      · have : e.tgt = e0.tgt := by rw [← heq]
        exact this ▸ h0.2
    · unfold EdgeKeysDistinct at hkeys ⊢
      rw [make_edge_ids]
      exact hkeys.map _ (fun a b hab => by simpa using hab)

theorem sepArrow_inj : ∀ (a c : Str), '>' ∉ a → '>' ∉ c → ∀ (b d : Str),
    a ++ sepArrow ++ b = c ++ sepArrow ++ d → a = c ∧ b = d := by
  intro a
  induction a with
  | nil =>
    intro c ha hc b d heq
    cases c with
    | nil =>
      simp only [sepArrow, List.nil_append, List.cons_append,
        List.cons.injEq, true_and] at heq
      exact ⟨rfl, by simpa using heq⟩
    | cons x c2 =>
      exfalso
      simp only [sepArrow, List.nil_append, List.cons_append,
        List.cons.injEq] at heq
      obtain ⟨hx, heq2⟩ := heq
      cases c2 with
      | nil => simp [sepArrow] at heq2
      | cons y c3 =>
        simp only [List.cons_append, List.cons.injEq] at heq2
        obtain ⟨hy, heq3⟩ := heq2
        cases c3 with
        | nil => simp [sepArrow] at heq3
        | cons z c4 =>
          simp only [List.cons_append, List.cons.injEq] at heq3
          obtain ⟨hz, _⟩ := heq3
          apply hc
          rw [hz]
          simp
  | cons x a2 ih =>
    intro c ha hc b d heq
    cases c with
    | nil =>
      exfalso
      simp only [sepArrow, List.nil_append, List.cons_append,
        List.cons.injEq] at heq
      obtain ⟨hx, heq2⟩ := heq
      cases a2 with
      | nil => simp [sepArrow] at heq2
      | cons y a3 =>
        simp only [List.cons_append, List.cons.injEq] at heq2
        obtain ⟨hy, heq3⟩ := heq2
        cases a3 with
        | nil => simp [sepArrow] at heq3
        | cons z a4 =>
          simp only [List.cons_append, List.cons.injEq] at heq3
          obtain ⟨hz, _⟩ := heq3
          apply ha
          rw [← hz]
          simp
    | cons y c2 =>
      simp only [List.cons_append, List.cons.injEq] at heq
      obtain ⟨hxy, heq2⟩ := heq
      have ha2 : '>' ∉ a2 := fun hh => ha (List.mem_cons_of_mem _ hh)
      have hc2 : '>' ∉ c2 := fun hh => hc (List.mem_cons_of_mem _ hh)
      obtain ⟨h1, h2⟩ := ih c2 ha2 hc2 b d heq2
      exact ⟨by rw [hxy, h1], h2⟩

/-- C9 counterexample: with transformation identifiers that embed the
separator pattern, the assembled graph contains two distinct edges
carrying the same derived identifier. -/
theorem edge_id_clash_cex :
    (retroGraph [cexCA, cexCB] [cexTX, cexTY]).isSome = true ∧
    ((retroGraph [cexCA, cexCB] [cexTX, cexTY]).getD emptyNet).edges.Nodup ∧
    ¬ (((retroGraph [cexCA, cexCB] [cexTX, cexTY]).getD emptyNet).edges.map
        (fun e => e.eid)).Nodup := by
  refine ⟨by decide, by decide, by decide⟩

/-- C9 (amended): after assembly every edge carries the identifier
`source ++ "_=>_" ++ target` and both endpoints exist as nodes; and
provided no node identifier contains the character `>`, no two distinct
edges share the same identifier. -/
theorem edge_id_invariants (cmpds : List Compound) (trss : List Transformation)
    (net2 : Net) (hA : retroGraph cmpds trss = some net2) :
    (∀ e ∈ net2.edges, e.eid = some (e.src ++ sepArrow ++ e.tgt)) ∧
    (∀ e ∈ net2.edges, e.src ∈ nodeIds net2 ∧ e.tgt ∈ nodeIds net2) ∧
    ((∀ x ∈ nodeIds net2, '>' ∉ x) →
      ∀ e1 ∈ net2.edges, ∀ e2 ∈ net2.edges, e1.eid = e2.eid → e1 = e2) := by
  unfold retroGraph at hA
  split at hA
  · cases hA
  next net1 hcmp =>
    injection hA with hA2
    have hinv1 : AsmInv net1 := asmInv_add_compounds hcmp
    have hinv2 : AsmInv (add_transformations trss net1) :=
      asmInv_add_transformations hinv1
    obtain ⟨_, heids, hinvf⟩ :=
      make_edge_ids_spec (add_transformations trss net1)
    have hinv3 : AsmInv (make_edge_ids (add_transformations trss net1)) :=
      hinvf hinv2
    rw [← hA2]
    refine ⟨fun e he => (heids e he).1, fun e he => hinv3.1 e he, ?_⟩
    intro hgt e1 he1 e2 he2 heq
    rw [(heids e1 he1).1, (heids e2 he2).1] at heq
    injection heq with heq2
    have h1 := hinv3.1 e1 he1
    have h2 := hinv3.1 e2 he2
    obtain ⟨hsrc, htgt⟩ := sepArrow_inj e1.src e2.src
      (hgt _ h1.1) (hgt _ h2.1) e1.tgt e2.tgt heq2
    exact pairwise_key_unique hinv3.2 e1 he1 e2 he2 hsrc htgt

/-- C9 witness: the invariants evaluated on a concrete well-behaved
assembly of one compound and one transformation. -/
theorem edge_id_invariants_witness :
    retroGraph [wCmpdA] [wTrs1] = some wNet ∧
    ((∀ e ∈ wNet.edges, e.eid = some (e.src ++ sepArrow ++ e.tgt)) ∧
     (∀ e ∈ wNet.edges, e.src ∈ nodeIds wNet ∧ e.tgt ∈ nodeIds wNet) ∧
     ((∀ x ∈ nodeIds wNet, '>' ∉ x) →
       ∀ e1 ∈ wNet.edges, ∀ e2 ∈ wNet.edges, e1.eid = e2.eid → e1 = e2)) :=
  ⟨by decide, edge_id_invariants [wCmpdA] [wTrs1] wNet (by decide)⟩

end RP2
